import Mathlib

/-!
Verification development for the ASTScope core (lexical-scope tree and
name-resolution engine declared in include/swift/AST/ASTScope.h).

The repository ships only the class declarations (a header); the bodies of
the operations are not part of the source tree.  Definitions below therefore
fall in two groups:

* shapes and fields translated directly from the header (scope-node state:
  parent, stored children, cached source range, ignored-node range, deferred
  nodes, the expanded flag; the scope-kind catalog; the redirected lookup
  parent of a guard-use scope; the initializer-end bound of a pattern-entry
  use scope), and

* operations whose bodies are missing from the source tree, each marked
  `Modelled from the spec:` in its doc comment and written faithfully to the
  specification text (Range Engine contract, lazy expansion, the outward
  lookup walk of spec section 4.4).
-/

namespace AstScope

/-! ## Source locations and ranges -/

abbrev SourceLoc := Nat

/-- A source range, a pair of locations with `first ≤ last` when well formed. -/
structure SourceRange where
  first : Nat
  last : Nat
deriving DecidableEq

/-- Does the range contain the location? -/
def SourceRange.containsLoc (r : SourceRange) (l : SourceLoc) : Bool :=
  decide (r.first ≤ l) && decide (l ≤ r.last)

/-- Does `outer` contain `inner` (subset, proper or improper)? -/
def SourceRange.containsR (outer inner : SourceRange) : Bool :=
  decide (outer.first ≤ inner.first) && decide (inner.last ≤ outer.last)

/-- The smallest range containing both arguments. -/
def SourceRange.union (a b : SourceRange) : SourceRange :=
  ⟨min a.first b.first, max a.last b.last⟩

/-- Well-formedness of a range: it does not end before it starts. -/
def SourceRange.wfB (r : SourceRange) : Bool :=
  decide (r.first ≤ r.last)

/-! ## The Range Engine state: a scope tree with caches and deferred nodes

Each node carries the fields of `ASTScopeImpl` that the Range Engine reads
and writes: the childless source range, the range of ignored AST nodes, the
memoized `cachedSourceRange`, the expanded flag, the deferred nodes still to
be turned into children, and the stored children themselves. -/

mutual
inductive STree where
  | mk (childlessRange : SourceRange) (ignoredRange : Option SourceRange)
       (cachedSourceRange : Option SourceRange) (expanded : Bool)
       (deferredNodes : STreeList) (storedChildren : STreeList)
inductive STreeList where
  | nil
  | cons (head : STree) (tail : STreeList)
end

def STree.childlessRange : STree → SourceRange
  | .mk cr _ _ _ _ _ => cr

def STree.ignoredRange : STree → Option SourceRange
  | .mk _ ig _ _ _ _ => ig

def STree.cachedSourceRange : STree → Option SourceRange
  | .mk _ _ ca _ _ _ => ca

def STree.expanded : STree → Bool
  | .mk _ _ _ ex _ _ => ex

def STree.deferredNodes : STree → STreeList
  | .mk _ _ _ _ df _ => df

def STree.storedChildren : STree → STreeList
  | .mk _ _ _ _ _ ch => ch

def STreeList.append : STreeList → STreeList → STreeList
  | .nil, l => l
  | .cons a t, l => .cons a (t.append l)

def STreeList.toList : STreeList → List STree
  | .nil => []
  | .cons x xs => x :: xs.toList

def STreeList.get? : STreeList → Nat → Option STree
  | .nil, _ => none
  | .cons x _, 0 => some x
  | .cons _ xs, k+1 => xs.get? k

/-- The childless range widened by the ignored-AST-node range. -/
def mergeBase (cr : SourceRange) : Option SourceRange → SourceRange
  | none => cr
  | some ig => cr.union ig

mutual
/-- Modelled from the spec: the minimal source range containing the node's
own content, its ignored-content range, and the ranges of all its (stored)
children.  The body of `getUncachedSourceRange` is not in the source tree. -/
def computedRange : STree → SourceRange
  | .mk cr ig _ _ _ ch => unionChildren (mergeBase cr ig) ch
def unionChildren : SourceRange → STreeList → SourceRange
  | acc, .nil => acc
  | acc, .cons c cs => unionChildren (acc.union (computedRange c)) cs
end

mutual
/-- The fully-expanded skeleton of a tree: all deferred nodes moved into the
child list, caches dropped.  Used to speak about the eventual extent of a
node once lazy expansion has run everywhere. -/
def fullyExpand : STree → STree
  | .mk cr ig _ _ df ch => .mk cr ig none true .nil ((fullyExpandL ch).append (fullyExpandL df))
def fullyExpandL : STreeList → STreeList
  | .nil => .nil
  | .cons c cs => .cons (fullyExpand c) (fullyExpandL cs)
end

/-- The range a node will have once its whole subtree is expanded. -/
def eventualRange (t : STree) : SourceRange :=
  computedRange (fullyExpand t)

/-- Modelled from the spec: the lazy-expansion transition of `expandMe` on
one node — drain the deferred list into the child list, mark the node
expanded; a second call is a no-op.  The body of `expandMe` is not in the
source tree. -/
def expandNode : STree → STree
  | t@(.mk cr ig _ ex df ch) =>
    if ex then t else .mk cr ig none true .nil (ch.append df)

mutual
/-- Apply the lazy-expansion transition at the node addressed by the path,
clearing the cached range of every ancestor on the way (children appended to
the target invalidate the caches up the parent chain). -/
def expandAt : List Nat → STree → STree
  | [], t => expandNode t
  | k :: p, .mk cr ig _ ex df ch => .mk cr ig none ex df (expandAtL k p ch)
def expandAtL : Nat → List Nat → STreeList → STreeList
  | _, _, .nil => .nil
  | 0, p, .cons c cs => .cons (expandAt p c) cs
  | k+1, p, .cons c cs => .cons c (expandAtL k p cs)
end

mutual
/-- Modelled from the spec: append a new child at the node addressed by the
path; the cached source range of the target and of every ancestor on the
path is invalidated (`clearCachedSourceRangesOfAncestors`).  The body of
`addChild` is not in the source tree. -/
def addChildAt : List Nat → STree → STree → STree
  | [], c, .mk cr ig _ ex df ch => .mk cr ig none ex df (ch.append (.cons c .nil))
  | k :: p, c, .mk cr ig _ ex df ch => .mk cr ig none ex df (addChildAtL k p c ch)
def addChildAtL : Nat → List Nat → STree → STreeList → STreeList
  | _, _, _, .nil => .nil
  | 0, p, c, .cons x xs => .cons (addChildAt p c x) xs
  | k+1, p, c, .cons x xs => .cons x (addChildAtL k p c xs)
end

/-- The subtree addressed by a path of child indices. -/
def subtreeAt : List Nat → STree → Option STree
  | [], t => some t
  | k :: p, .mk _ _ _ _ _ ch =>
    match ch.get? k with
    | none => none
    | some c => subtreeAt p c

mutual
/-- Modelled from the spec: `getSourceRange` — return the memoized range when
present; otherwise trigger expansion if the node is not yet expanded, compute
the minimal range containing the node's own content, its ignored range and
the (recursively computed, memoized) ranges of all children, and cache it. -/
def getRangeM : STree → STree × SourceRange
  | .mk cr ig ca ex df ch =>
    match ca with
    | some r => (.mk cr ig ca ex df ch, r)
    | none =>
      let pc := getRangeL (mergeBase cr ig) ch
      if ex then
        (.mk cr ig (some pc.2) ex df pc.1, pc.2)
      else
        let pd := getRangeL pc.2 df
        (.mk cr ig (some pd.2) true .nil (pc.1.append pd.1), pd.2)
def getRangeL : SourceRange → STreeList → STreeList × SourceRange
  | acc, .nil => (.nil, acc)
  | acc, .cons c cs =>
    let pr := getRangeM c
    let rest := getRangeL (acc.union pr.2) cs
    (.cons pr.1 rest.1, rest.2)
end

/-- One node's cache is in order: either empty, or the node is expanded and
the memoized value is the recomputed range. -/
def cacheOkB (ca : Option SourceRange) (ex : Bool) (rng : SourceRange) : Bool :=
  match ca with
  | none => true
  | some r => ex && decide (r = rng)

mutual
/-- Cache coherence: every memoized range in the tree belongs to an expanded
node and equals the recomputed range of that node. -/
def coherent : STree → Bool
  | .mk cr ig ca ex df ch =>
    cacheOkB ca ex (computedRange (.mk cr ig ca ex df ch))
    && coherentL df && coherentL ch
def coherentL : STreeList → Bool
  | .nil => true
  | .cons c cs => coherent c && coherentL cs
end

/-- Ordered, non-overlapping: consecutive ranges are strictly separated. -/
def rangesOrderedB : List SourceRange → Bool
  | [] => true
  | [_] => true
  | a :: b :: rest => decide (a.last < b.first) && rangesOrderedB (b :: rest)

/-- Well-formedness of an optional range. -/
def optWfB : Option SourceRange → Bool
  | none => true
  | some r => r.wfB

mutual
/-- The creator discipline: at every node the base ranges are well formed and
the eventual ranges of the kids (stored children then deferred nodes, the
order in which expansion will store them) are ordered and non-overlapping. -/
def orderedTreeB : STree → Bool
  | .mk cr ig _ _ df ch =>
    cr.wfB
    && optWfB ig
    && rangesOrderedB (((ch.append df).toList).map eventualRange)
    && orderedListB ch && orderedListB df
def orderedListB : STreeList → Bool
  | .nil => true
  | .cons c cs => orderedTreeB c && orderedListB cs
end

/-! ## The Lookup Engine model

Scopes live in an arena indexed by natural numbers (the source file owns all
nodes), because a guard-use scope stores a lookup parent that is not its tree
parent, a cross-link an inductive tree cannot express.  The scope-kind
catalog below carries, per kind, exactly the payload the header's classes
store: a generic-parameter scope holds its holder declaration, one parameter
and its index; a pattern-entry use scope holds the recorded end of its
entry's initializer; a guard-use scope holds the redirected lookup parent. -/

/-- A found declaration as reported to the consumer: name, visibility kind,
and the scope that offered it. -/
inductive DeclVisibilityKind where
  | localVariable
  | functionParameter
  | genericParameter
  | memberOfCurrentNominal
deriving DecidableEq

/-- Per-declaration information the lookup needs: whether it is a nominal
type, its instance members, its generic parameters, and whether it is
declared lexically inside another type's body (illegal nesting). -/
structure DeclInfo where
  isNominal : Bool
  instanceMembers : List String
  genericParams : List String
  declaredInTypeBody : Bool
deriving DecidableEq

inductive ScopeKind where
  | sourceFile
  | nominalWhole (declId : Nat)
  | nominalWhere (declId : Nat)
  | nominalBody (declId : Nat)
  | genericParam (holderDeclId : Nat) (paramName : String) (index : Nat)
  | abstractFunctionDecl (declId : Nat)
  | abstractFunctionParams (paramNames : List String)
  | methodBody (declId : Nat)
  | pureFunctionBody (declId : Nat)
  | patternEntryDecl (boundNames : List String)
  | patternEntryInit (boundNames : List String)
  | patternEntryUse (boundNames : List String) (initializerEnd : Option Nat)
  | conditionalClause (index : Nat)
  | conditionElementPattern (boundNames : List String)
  | guardStmt
  | guardUse (redirectParent : Nat)
  | braceStmt (localNames : List String)
deriving DecidableEq

/-- One scope node of the arena: tree parent, source range, tree children
(sorted by range), and its kind. -/
structure Scope where
  parent : Option Nat
  range : SourceRange
  children : List Nat
  kind : ScopeKind
deriving DecidableEq

/-- A scope tree: the arena of scopes (index 0 is the source-file root) and
the table of declarations the scopes refer to. -/
structure ScopeTree where
  scopes : List Scope
  decls : List DeclInfo
deriving DecidableEq

structure FoundDecl where
  name : String
  vis : DeclVisibilityKind
  fromScope : Nat
deriving DecidableEq

/-- Modelled from the spec: `lookupLocalBindings` — the names a scope itself
introduces.  A generic-parameter scope binds exactly its own parameter; a
pattern-entry use scope binds its pattern's names (split from the
initializer); a condition-element pattern scope binds its pattern's names;
the initializer and declaration scopes of a pattern entry bind nothing. -/
def lookupLocalBindings : ScopeKind → List (String × DeclVisibilityKind)
  | .genericParam _ p _ => [(p, .genericParameter)]
  | .abstractFunctionParams ps => ps.map (fun n => (n, .functionParameter))
  | .patternEntryUse ns _ => ns.map (fun n => (n, .localVariable))
  | .conditionElementPattern ns => ns.map (fun n => (n, .localVariable))
  | .braceStmt ns => ns.map (fun n => (n, .localVariable))
  | _ => []

/-- Modelled from the spec: the declaration whose generics and self type a
scope searches (the target of the haveAlreadyLookedHere marker).  Chained
nodes of one declaration — whole, where, body, generic-parameter scopes of a
type; decl and body scopes of a function — all name the same declaration. -/
def declSearchedHere : ScopeKind → Option Nat
  | .nominalWhole d => some d
  | .nominalWhere d => some d
  | .nominalBody d => some d
  | .genericParam d _ _ => some d
  | .abstractFunctionDecl d => some d
  | .methodBody d => some d
  | .pureFunctionBody d => some d
  | _ => none

/-- Modelled from the spec: what the self-type lookup of a declaration
offers — the instance members of a nominal type, via implicit self. -/
def selfTypeContribution (t : ScopeTree) (d : Nat) : List (String × DeclVisibilityKind) :=
  match t.decls.get? d with
  | some info =>
    if info.isNominal then info.instanceMembers.map (fun n => (n, .memberOfCurrentNominal))
    else []
  | none => []

/-- `getLookupParent`: normally the tree parent, but a guard-use scope
redirects to the innermost nested conditional-clause scope (translated from
the header: the base returns `parent`, `GuardUseScope` returns its stored
`lookupParent`). -/
def getLookupParent (t : ScopeTree) (i : Nat) : Option Nat :=
  match t.scopes.get? i with
  | none => none
  | some sc =>
    match sc.kind with
    | .guardUse r => some r
    | _ => sc.parent

/-- Modelled from the spec: `getLookupLimit` — the scope at which upward
lookup must stop.  The whole-declaration scope of a nominal type that is
itself declared inside another type's body limits lookup to itself, so the
walk never reaches the outer type's scopes. -/
def getLookupLimit (t : ScopeTree) (i : Nat) : Option Nat :=
  match t.scopes.get? i with
  | none => none
  | some sc =>
    match sc.kind with
    | .nominalWhole d =>
      match t.decls.get? d with
      | some info => if info.declaredInTypeBody then some i else none
      | none => none
    | _ => none

/-- Modelled from the spec: `computeSelfDCForParent` — a method body supplies
the implicit-self context to its parent when none is set yet. -/
def computeSelfDCForParent (k : ScopeKind) (selfDC : Option Nat) : Option Nat :=
  match k with
  | .methodBody d => selfDC <|> some d
  | _ => selfDC

/-- Modelled from the spec: `resolveIsCascadingUseForThisScope` — an unknown
cascading-use state may be resolved by a scope's policy; a known state is
never overridden. -/
def resolveIsCascadingUseForThisScope (k : ScopeKind) (c : Option Bool) : Option Bool :=
  c <|> (match k with
    | .methodBody _ => some false
    | .pureFunctionBody _ => some false
    | .abstractFunctionDecl _ => some false
    | .nominalWhole _ => some true
    | .nominalWhere _ => some true
    | .nominalBody _ => some true
    | _ => none)

/-- Apply a scope's cascading-use policy by arena index. -/
def resolveCascadingAt (t : ScopeTree) (i : Nat) (c : Option Bool) : Option Bool :=
  match t.scopes.get? i with
  | none => c
  | some sc => resolveIsCascadingUseForThisScope sc.kind c

/-- The instrumented outcome of an outward lookup walk: the final
cascading-use state and consumer state, plus observation lists — the scopes
visited, the search steps reached (the declaration, if any, whose generics
and self type the scope would search), the declarations actually searched,
the scopes whose cascading policy was folded, and every batch of found
declarations delivered to the consumer. -/
structure LookupOutcome (σ : Type) where
  isCascadingUse : Option Bool
  consumerState : σ
  visited : List Nat
  searchSteps : List (Option Nat)
  searched : List Nat
  foldedScopes : List Nat
  offeredBatches : List (List FoundDecl)

/-- The continuation of one lookup step: stop at a lookup limit, stop at the
root, or hand the threaded state to `recurse` at the lookup parent.
`recurse` is the walk at the remaining fuel. -/
def lookupCont {σ : Type} (t : ScopeTree)
    (recurse : Nat → Option Nat → Option Nat → Option Nat → Option Bool → σ →
      LookupOutcome σ)
    (i : Nat) (sc : Scope) (selfDC limit2 already2 : Option Nat)
    (casc : Option Bool) (st : σ) (steps0 : List (Option Nat)) (searched0 : List Nat)
    (batches0 : List (List FoundDecl)) : LookupOutcome σ :=
  if limit2 = some i then ⟨casc, st, [i], steps0, searched0, [], batches0⟩
  else
    match getLookupParent t i with
    | none => ⟨casc, st, [i], steps0, searched0, [], batches0⟩
    | some p =>
      let casc2 := resolveIsCascadingUseForThisScope sc.kind casc
      let res := recurse p (computeSelfDCForParent sc.kind selfDC) limit2 already2 casc2 st
      ⟨res.isCascadingUse, res.consumerState, i :: res.visited,
        steps0 ++ res.searchSteps, searched0 ++ res.searched,
        i :: res.foldedScopes, batches0 ++ res.offeredBatches⟩

/-- Modelled from the spec (section 4.4, step 3) and the header's doc
comment on `ASTScopeImpl::lookup`: at each scope, offer the local bindings
to the consumer; perform the generics-and-self-type search idempotently,
skipping it when the haveAlreadyLookedHere marker already names this scope's
declaration; if a lookup limit applies here, terminate without continuing
outward; otherwise fold the cascading-use contribution and continue at the
lookup parent.  `consume` is the caller-supplied consumer: it takes its
state and a batch of found declarations and returns the new state and
whether lookup should stop. -/
def lookupGo {σ : Type} (t : ScopeTree) (consume : σ → List FoundDecl → σ × Bool) :
    Nat → Nat → Option Nat → Option Nat → Option Nat → Option Bool → σ → LookupOutcome σ
  | 0, _, _, _, _, casc, st => ⟨casc, st, [], [], [], [], []⟩
  | fuel+1, i, selfDC, limit, already, casc, st =>
    match t.scopes.get? i with
    | none => ⟨casc, st, [], [], [], [], []⟩
    | some sc =>
      let offered1 := (lookupLocalBindings sc.kind).map fun nv => FoundDecl.mk nv.1 nv.2 i
      let r1 := consume st offered1
      if r1.2 then ⟨casc, r1.1, [i], [], [], [], [offered1]⟩
      else
        let limit2 := limit <|> getLookupLimit t i
        match declSearchedHere sc.kind with
        | some d =>
          if already = some d then
            lookupCont t (fun p sd lim al c s => lookupGo t consume fuel p sd lim al c s)
              i sc selfDC limit2 already casc r1.1 [some d] [] [offered1]
          else
            let offered2 := (selfTypeContribution t d).map fun nv => FoundDecl.mk nv.1 nv.2 i
            let r2 := consume r1.1 offered2
            if r2.2 then ⟨casc, r2.1, [i], [some d], [d], [], [offered1, offered2]⟩
            else
              lookupCont t (fun p sd lim al c s => lookupGo t consume fuel p sd lim al c s)
                i sc selfDC limit2 (some d) casc r2.1 [some d] [d] [offered1, offered2]
        | none =>
          lookupCont t (fun p sd lim al c s => lookupGo t consume fuel p sd lim al c s)
            i sc selfDC limit2 already casc r1.1 [none] [] [offered1]

/-- Modelled from the spec: the effective source range a scope occupies for
location-based descent.  A pattern-entry use scope must not start before the
recorded end of its entry's initializer (`initializerEnd`, translated from
the header's field), because the initializer may end in a token that
misreports its extent. -/
def scopeRangeOf (t : ScopeTree) (i : Nat) : Option SourceRange :=
  (t.scopes.get? i).map fun sc =>
    match sc.kind with
    | .patternEntryUse _ (some ie) => ⟨max sc.range.first ie, sc.range.last⟩
    | _ => sc.range

/-- Modelled from the spec: `findInnermostEnclosingScope` — descend from a
scope to the child whose range contains the location, repeatedly. -/
def findInnermost (t : ScopeTree) : Nat → Nat → Nat → Nat
  | 0, i, _ => i
  | fuel+1, i, loc =>
    match t.scopes.get? i with
    | none => i
    | some sc =>
      match sc.children.find? (fun c =>
        match scopeRangeOf t c with
        | some r => r.containsLoc loc
        | none => false) with
      | some c => findInnermost t fuel c loc
      | none => i

/-- Modelled from the spec: `unqualifiedLookup` — find the innermost scope
containing the location, then walk outward with no limit, no implicit-self
context and no already-looked marker; the result carries the final
cascading-use state and everything delivered to the consumer. -/
def unqualifiedLookup {σ : Type} (t : ScopeTree) (consume : σ → List FoundDecl → σ × Bool)
    (fuel : Nat) (loc : Nat) (isCascadingUse : Option Bool) (st : σ) : LookupOutcome σ :=
  lookupGo t consume fuel (findInnermost t fuel 0 loc) none none none isCascadingUse st

/-- The standard unqualified-lookup consumer: collect the batch entries whose
name matches the target, stop as soon as something has been found. -/
def targetConsumer (target : String) (st : List FoundDecl) (batch : List FoundDecl) :
    List FoundDecl × Bool :=
  let st2 := st ++ batch.filter (fun f => f.name = target)
  (st2, !st2.isEmpty)

/-- Run a whole-name lookup and return just the matches, in delivery order. -/
def lookupMatches (t : ScopeTree) (fuel loc : Nat) (target : String) : List FoundDecl :=
  (unqualifiedLookup t (targetConsumer target) fuel loc none []).consumerState

/-- Modelled from the spec: the scope-creator rule for a generic parameter
list — one scope per parameter, each nested inside the previous one, each
holding exactly its own parameter.  Returns the extended tree and the id of
the deepest created scope (the parent for whatever nests further in). -/
def addChildLink (t : ScopeTree) (p c : Nat) : ScopeTree :=
  match t.scopes.get? p with
  | none => t
  | some sp =>
    { t with scopes := t.scopes.set p { sp with children := sp.children ++ [c] } }

def createGenericParamChain (holder : Nat) (range : SourceRange) :
    List String → Nat → Nat → ScopeTree → ScopeTree × Nat
  | [], _, parentId, t => (t, parentId)
  | p :: rest, idx, parentId, t =>
    let newId := t.scopes.length
    let t1 : ScopeTree :=
      { addChildLink t parentId newId with
        scopes := (addChildLink t parentId newId).scopes ++
          [{ parent := some parentId, range := range, children := [],
             kind := .genericParam holder p idx }] }
    createGenericParamChain holder range rest (idx + 1) newId t1

/-! ## Misreporting AST nodes (interpolated string literals, editor
placeholders) -/

inductive ASTNodeKind where
  | regular
  | interpolatedStringLiteral
  | editorPlaceholder
deriving DecidableEq

/-- An AST node handle with its real extent. -/
structure ASTNodeModel where
  kind : ASTNodeKind
  startLoc : Nat
  endLoc : Nat
deriving DecidableEq

/-- The range the AST node itself reports: interpolated string literals and
editor placeholders respond to the source-range query with only their
starting point (translated from the header's comment). -/
def ASTNodeModel.reportedSourceRange (n : ASTNodeModel) : SourceRange :=
  match n.kind with
  | .regular => ⟨n.startLoc, n.endLoc⟩
  | .interpolatedStringLiteral => ⟨n.startLoc, n.startLoc⟩
  | .editorPlaceholder => ⟨n.startLoc, n.startLoc⟩

/-- Modelled from the spec: `getEffectiveSourceRange` — the real source range
of the node, covering its whole extent even for misreporting kinds. -/
def getEffectiveSourceRange (n : ASTNodeModel) : SourceRange :=
  ⟨n.startLoc, n.endLoc⟩

/-! ## Auxiliary definitions for the theorems -/

/-- Fold of the eventual ranges of a kid list onto an accumulator. -/
def foldEvtl : SourceRange → STreeList → SourceRange
  | acc, .nil => acc
  | acc, .cons c cs => foldEvtl (acc.union (eventualRange c)) cs

/-- Decidable check of the grouping discipline on the search steps of one
walk: scope nodes naming the same declaration appear consecutively in the
outward chain, so a declaration never reappears once the marker has moved
past it; `used` collects declarations whose group is already closed. -/
def groupedSteps : List Nat → Option Nat → List (Option Nat) → Bool
  | _, _, [] => true
  | used, m, none :: rest => groupedSteps used m rest
  | used, m, some d :: rest =>
    if m = some d then groupedSteps used m rest
    else decide (d ∉ used) && groupedSteps (d :: used) (some d) rest

/-! ## Concrete scenario trees -/

/-- A file with a guard statement inside a function body:
scope 2 is the guard statement, scope 3 its conditional clause, scope 4 the
condition-element pattern binding `x`, scope 5 the else block, and scope 6
the continuation after the guard, whose lookup parent is redirected to
scope 4 while its tree parent is scope 1. -/
def guardTree : ScopeTree where
  scopes :=
    [ { parent := none, range := ⟨0, 100⟩, children := [1], kind := .sourceFile },
      { parent := some 0, range := ⟨10, 90⟩, children := [2, 6], kind := .braceStmt [] },
      { parent := some 1, range := ⟨20, 39⟩, children := [3, 5], kind := .guardStmt },
      { parent := some 2, range := ⟨24, 31⟩, children := [4], kind := .conditionalClause 0 },
      { parent := some 3, range := ⟨28, 31⟩, children := [],
        kind := .conditionElementPattern ["x"] },
      { parent := some 2, range := ⟨32, 39⟩, children := [], kind := .braceStmt [] },
      { parent := some 1, range := ⟨40, 90⟩, children := [], kind := .guardUse 4 } ]
  decls := []

/-- A file with a generic struct `Outer` (member `m`, generic parameter `T`)
whose body contains a nested struct `Inner` (member `n`, illegally nested)
with a method, and a second method of `Outer` after the nested type.
Declarations: 0 = Outer, 1 = Inner, 2 = the inner method, 3 = the outer
method. -/
def nestedTypeTree : ScopeTree where
  scopes :=
    [ { parent := none, range := ⟨0, 200⟩, children := [1], kind := .sourceFile },
      { parent := some 0, range := ⟨10, 190⟩, children := [2], kind := .nominalWhole 0 },
      { parent := some 1, range := ⟨12, 190⟩, children := [3],
        kind := .genericParam 0 "T" 0 },
      { parent := some 2, range := ⟨20, 190⟩, children := [4, 9], kind := .nominalBody 0 },
      { parent := some 3, range := ⟨30, 180⟩, children := [5], kind := .nominalWhole 1 },
      { parent := some 4, range := ⟨40, 180⟩, children := [6], kind := .nominalBody 1 },
      { parent := some 5, range := ⟨50, 170⟩, children := [7],
        kind := .abstractFunctionDecl 2 },
      { parent := some 6, range := ⟨60, 170⟩, children := [8], kind := .methodBody 2 },
      { parent := some 7, range := ⟨61, 169⟩, children := [], kind := .braceStmt [] },
      { parent := some 3, range := ⟨182, 188⟩, children := [10],
        kind := .abstractFunctionDecl 3 },
      { parent := some 9, range := ⟨183, 187⟩, children := [], kind := .methodBody 3 } ]
  decls :=
    [ { isNominal := true, instanceMembers := ["m"], genericParams := ["T"],
        declaredInTypeBody := false },
      { isNominal := true, instanceMembers := ["n"], genericParams := [],
        declaredInTypeBody := true },
      { isNominal := false, instanceMembers := [], genericParams := [],
        declaredInTypeBody := false },
      { isNominal := false, instanceMembers := [], genericParams := [],
        declaredInTypeBody := false } ]

/-- A struct with generic parameters `A` and `B`, one scope per parameter,
`B`'s scope nested inside `A`'s; location 14 lies inside `A`'s scope only
(`A`'s bound region), location 18 inside `B`'s scope (`B`'s bound region). -/
def genericTree : ScopeTree where
  scopes :=
    [ { parent := none, range := ⟨0, 100⟩, children := [1], kind := .sourceFile },
      { parent := some 0, range := ⟨10, 60⟩, children := [2], kind := .nominalWhole 0 },
      { parent := some 1, range := ⟨13, 60⟩, children := [3],
        kind := .genericParam 0 "A" 0 },
      { parent := some 2, range := ⟨16, 60⟩, children := [4],
        kind := .genericParam 0 "B" 1 },
      { parent := some 3, range := ⟨30, 60⟩, children := [], kind := .nominalBody 0 } ]
  decls :=
    [ { isNominal := true, instanceMembers := [], genericParams := ["A", "B"],
        declaredInTypeBody := false } ]

/-- A function with parameter `a` whose body contains `let a = a` followed by
more code: scope 5 is the pattern-entry declaration scope, scope 6 the
initializer scope (the right-hand side lives at location 22), scope 7 the
use scope (subsequent code lives at location 40). -/
def patternTree : ScopeTree where
  scopes :=
    [ { parent := none, range := ⟨0, 100⟩, children := [1], kind := .sourceFile },
      { parent := some 0, range := ⟨5, 95⟩, children := [2],
        kind := .abstractFunctionDecl 0 },
      { parent := some 1, range := ⟨8, 95⟩, children := [3],
        kind := .abstractFunctionParams ["a"] },
      { parent := some 2, range := ⟨10, 95⟩, children := [4], kind := .pureFunctionBody 0 },
      { parent := some 3, range := ⟨11, 94⟩, children := [5, 7], kind := .braceStmt [] },
      { parent := some 4, range := ⟨12, 30⟩, children := [6],
        kind := .patternEntryDecl ["a"] },
      { parent := some 5, range := ⟨20, 30⟩, children := [],
        kind := .patternEntryInit ["a"] },
      { parent := some 4, range := ⟨31, 94⟩, children := [],
        kind := .patternEntryUse ["a"] (some 30) } ]
  decls :=
    [ { isNominal := false, instanceMembers := [], genericParams := [],
        declaredInTypeBody := false } ]

/-- An interpolated string literal spanning locations 20 to 40; it reports
only its starting point as its source range. -/
def litNode : ASTNodeModel :=
  { kind := .interpolatedStringLiteral, startLoc := 20, endLoc := 40 }

/-- A function with parameter `b` whose body contains
`let a = "... interpolation of b ..."` followed by more code.  The
initializer scope (4) gets its range from the literal's effective source
range; the use scope (5) records initializer end 40 although its stored
range starts too early, at 30. -/
def c10Tree : ScopeTree where
  scopes :=
    [ { parent := none, range := ⟨0, 100⟩, children := [1], kind := .sourceFile },
      { parent := some 0, range := ⟨5, 95⟩, children := [2],
        kind := .abstractFunctionParams ["b"] },
      { parent := some 1, range := ⟨10, 95⟩, children := [3, 5], kind := .braceStmt [] },
      { parent := some 2, range := ⟨12, 40⟩, children := [4],
        kind := .patternEntryDecl ["a"] },
      { parent := some 3, range := getEffectiveSourceRange litNode, children := [],
        kind := .patternEntryInit ["a"] },
      { parent := some 2, range := ⟨30, 95⟩, children := [],
        kind := .patternEntryUse ["a"] (some 40) } ]
  decls := []

/-- A small Range Engine tree: an unexpanded root with one stored child and
two deferred nodes, all leaves expanded, no caches set. -/
def rangeLeaf (a b : Nat) : STree :=
  .mk ⟨a, b⟩ none none true .nil .nil

def rangeDemoTree : STree :=
  .mk ⟨0, 100⟩ none none false
    (.cons (rangeLeaf 30 40) (.cons (rangeLeaf 50 60) .nil))
    (.cons (rangeLeaf 10 20) .nil)

/-! # Theorems -/

/-! ## Source-range algebra -/

theorem containsR_refl (a : SourceRange) : a.containsR a = true := by
  simp [SourceRange.containsR]

theorem containsR_trans {a b c : SourceRange} (h1 : a.containsR b = true)
    (h2 : b.containsR c = true) : a.containsR c = true := by
  simp only [SourceRange.containsR, Bool.and_eq_true, decide_eq_true_eq] at *
  omega

theorem union_containsR_left (a b : SourceRange) : (a.union b).containsR a = true := by
  simp only [SourceRange.containsR, SourceRange.union, Bool.and_eq_true, decide_eq_true_eq]
  omega

theorem union_containsR_right (a b : SourceRange) : (a.union b).containsR b = true := by
  simp only [SourceRange.containsR, SourceRange.union, Bool.and_eq_true, decide_eq_true_eq]
  omega

theorem containsR_union {r a b : SourceRange} (h1 : r.containsR a = true)
    (h2 : r.containsR b = true) : r.containsR (a.union b) = true := by
  simp only [SourceRange.containsR, SourceRange.union, Bool.and_eq_true,
    decide_eq_true_eq] at *
  omega

theorem union_absorb {a b : SourceRange} (h : a.containsR b = true) : a.union b = a := by
  cases a with
  | mk f1 l1 =>
    cases b with
    | mk f2 l2 =>
      simp only [SourceRange.containsR, Bool.and_eq_true, decide_eq_true_eq] at h
      simp only [SourceRange.union, SourceRange.mk.injEq]
      omega

theorem union_wf_left {a : SourceRange} (b : SourceRange) (h : a.wfB = true) :
    (a.union b).wfB = true := by
  simp only [SourceRange.wfB, SourceRange.union, decide_eq_true_eq] at *
  omega

theorem wf_containsR_before {a b a2 b2 : SourceRange}
    (ha : a.containsR a2 = true) (hb : b.containsR b2 = true)
    (h : a.last < b.first) : a2.last < b2.first := by
  simp only [SourceRange.containsR, Bool.and_eq_true, decide_eq_true_eq] at *
  omega

/-! ## STreeList glue -/

theorem STreeList.append_nil : ∀ l : STreeList, l.append .nil = l
  | .nil => rfl
  | .cons x xs => by simp [STreeList.append, STreeList.append_nil xs]

theorem STreeList.toList_append : ∀ l1 l2 : STreeList,
    (l1.append l2).toList = l1.toList ++ l2.toList
  | .nil, l2 => rfl
  | .cons x xs, l2 => by
    simp [STreeList.append, STreeList.toList, STreeList.toList_append xs l2]

theorem STreeList.get?_mem : ∀ (l : STreeList) (k : Nat) (x : STree),
    l.get? k = some x → x ∈ l.toList
  | .cons y ys, 0, x, h => by
    simp only [STreeList.get?, Option.some.injEq] at h
    simp [STreeList.toList, h]
  | .cons y ys, k+1, x, h => by
    simp only [STreeList.get?] at h
    simp [STreeList.toList, STreeList.get?_mem ys k x h]

/-! ## The computed range is the minimal range containing the parts -/

theorem unionChildren_contains_acc : ∀ (l : STreeList) (acc : SourceRange),
    (unionChildren acc l).containsR acc = true
  | .nil, acc => by simp [unionChildren, containsR_refl]
  | .cons c cs, acc => by
    simp only [unionChildren]
    exact containsR_trans (unionChildren_contains_acc cs (acc.union (computedRange c)))
      (union_containsR_left _ _)

theorem unionChildren_contains_mem : ∀ (l : STreeList) (acc : SourceRange) (c : STree),
    c ∈ l.toList → (unionChildren acc l).containsR (computedRange c) = true
  | .nil, _, c, h => by simp [STreeList.toList] at h
  | .cons x xs, acc, c, h => by
    simp only [STreeList.toList, List.mem_cons] at h
    rcases h with h | h
    · subst h
      simp only [unionChildren]
      exact containsR_trans (unionChildren_contains_acc xs _) (union_containsR_right _ _)
    · exact unionChildren_contains_mem xs _ c h

theorem unionChildren_minimal : ∀ (l : STreeList) (acc r : SourceRange),
    r.containsR acc = true → (∀ c ∈ l.toList, r.containsR (computedRange c) = true) →
    r.containsR (unionChildren acc l) = true
  | .nil, acc, r, h, _ => by simpa [unionChildren] using h
  | .cons x xs, acc, r, h, hm => by
    simp only [unionChildren]
    exact unionChildren_minimal xs _ r
      (containsR_union h (hm x (by simp [STreeList.toList])))
      (fun c hc => hm c (by simp [STreeList.toList]; exact Or.inr hc))

theorem unionChildren_append : ∀ (l1 l2 : STreeList) (acc : SourceRange),
    unionChildren acc (l1.append l2) = unionChildren (unionChildren acc l1) l2
  | .nil, l2, acc => rfl
  | .cons x xs, l2, acc => by
    simp only [STreeList.append, unionChildren]
    exact unionChildren_append xs l2 _

theorem unionChildren_wf : ∀ (l : STreeList) (acc : SourceRange),
    acc.wfB = true → (unionChildren acc l).wfB = true
  | .nil, acc, h => h
  | .cons x xs, acc, h => unionChildren_wf xs _ (union_wf_left _ h)

theorem computedRange_contains_base (t : STree) :
    (computedRange t).containsR (mergeBase t.childlessRange t.ignoredRange) = true := by
  cases t with
  | mk cr ig ca ex df ch =>
    simpa [computedRange, STree.childlessRange, STree.ignoredRange] using
      unionChildren_contains_acc ch (mergeBase cr ig)

theorem computedRange_contains_child {t c : STree}
    (h : c ∈ t.storedChildren.toList) :
    (computedRange t).containsR (computedRange c) = true := by
  cases t with
  | mk cr ig ca ex df ch =>
    simp only [STree.storedChildren] at h
    simpa [computedRange] using unionChildren_contains_mem ch (mergeBase cr ig) c h

/-! ## Eventual ranges and their invariance under expansion and range query -/

theorem fullyExpandL_append : ∀ l1 l2 : STreeList,
    fullyExpandL (l1.append l2) = (fullyExpandL l1).append (fullyExpandL l2)
  | .nil, l2 => rfl
  | .cons x xs, l2 => by
    simp [STreeList.append, fullyExpandL, fullyExpandL_append xs l2]

theorem mem_fullyExpandL : ∀ (l : STreeList) (c : STree),
    c ∈ l.toList → fullyExpand c ∈ (fullyExpandL l).toList
  | .nil, c, h => by simp [STreeList.toList] at h
  | .cons x xs, c, h => by
    simp only [STreeList.toList, List.mem_cons] at h
    rcases h with h | h
    · subst h; simp [fullyExpandL, STreeList.toList]
    · simp only [fullyExpandL, STreeList.toList, List.mem_cons]
      exact Or.inr (mem_fullyExpandL xs c h)

mutual
theorem eventualRange_contains_computed : ∀ t : STree,
    (eventualRange t).containsR (computedRange t) = true
  | .mk cr ig ca ex df ch => by
    have hmem := eventualRangeL_contains_computed ch
    show (computedRange (fullyExpand (.mk cr ig ca ex df ch))).containsR
      (computedRange (.mk cr ig ca ex df ch)) = true
    simp only [fullyExpand, computedRange]
    apply unionChildren_minimal
    · exact unionChildren_contains_acc _ _
    · intro c hc
      have h1 : fullyExpand c ∈ ((fullyExpandL ch).append (fullyExpandL df)).toList := by
        rw [STreeList.toList_append]
        exact List.mem_append_left _ (mem_fullyExpandL ch c hc)
      exact containsR_trans (unionChildren_contains_mem _ (mergeBase cr ig) _ h1)
        (hmem c hc)
theorem eventualRangeL_contains_computed : ∀ l : STreeList,
    ∀ c ∈ l.toList, (eventualRange c).containsR (computedRange c) = true
  | .nil => by intro c h; simp [STreeList.toList] at h
  | .cons x xs => by
    intro c h
    simp only [STreeList.toList, List.mem_cons] at h
    rcases h with h | h
    · rw [h]; exact eventualRange_contains_computed x
    · exact eventualRangeL_contains_computed xs c h
end

theorem fullyExpand_expandNode : ∀ t : STree, fullyExpand (expandNode t) = fullyExpand t
  | .mk cr ig ca ex df ch => by
    cases ex with
    | true => simp [expandNode]
    | false =>
      simp [expandNode, fullyExpand, fullyExpandL, fullyExpandL_append,
        STreeList.append_nil]

mutual
theorem fullyExpand_expandAt : ∀ (p : List Nat) (t : STree),
    fullyExpand (expandAt p t) = fullyExpand t
  | [], t => by
    simp only [expandAt]
    exact fullyExpand_expandNode t
  | k :: p, .mk cr ig ca ex df ch => by
    simp only [expandAt, fullyExpand, fullyExpandL_expandAtL k p ch]
theorem fullyExpandL_expandAtL : ∀ (k : Nat) (p : List Nat) (l : STreeList),
    fullyExpandL (expandAtL k p l) = fullyExpandL l
  | k, p, .nil => by simp only [expandAtL]
  | 0, p, .cons c cs => by
    simp only [expandAtL, fullyExpandL, fullyExpand_expandAt p c]
  | k+1, p, .cons c cs => by
    simp only [expandAtL, fullyExpandL, fullyExpandL_expandAtL k p cs]
end

mutual
theorem fullyExpand_getRangeM : ∀ t : STree, fullyExpand (getRangeM t).1 = fullyExpand t
  | .mk cr ig ca ex df ch => by
    cases ca with
    | some r => simp [getRangeM]
    | none =>
      cases ex with
      | true =>
        simp [getRangeM, fullyExpand, fullyExpandL_getRangeL ch (mergeBase cr ig)]
      | false =>
        simp [getRangeM, fullyExpand, fullyExpandL_append, fullyExpandL,
          STreeList.append_nil, fullyExpandL_getRangeL]
theorem fullyExpandL_getRangeL : ∀ (l : STreeList) (acc : SourceRange),
    fullyExpandL (getRangeL acc l).1 = fullyExpandL l
  | .nil, acc => by simp only [getRangeL]
  | .cons c cs, acc => by
    simp only [getRangeL, fullyExpandL, fullyExpand_getRangeM c, fullyExpandL_getRangeL cs]
end

theorem unionChildren_fullyExpandL : ∀ (l : STreeList) (acc : SourceRange),
    unionChildren acc (fullyExpandL l) = foldEvtl acc l
  | .nil, acc => rfl
  | .cons c cs, acc => by
    simp only [fullyExpandL, unionChildren, foldEvtl]
    rw [unionChildren_fullyExpandL cs]
    rfl

theorem eventualRange_mk (cr : SourceRange) (ig ca : Option SourceRange) (ex : Bool)
    (df ch : STreeList) :
    eventualRange (.mk cr ig ca ex df ch) = foldEvtl (mergeBase cr ig) (ch.append df) := by
  show computedRange (fullyExpand _) = _
  simp only [fullyExpand, computedRange]
  rw [← fullyExpandL_append, unionChildren_fullyExpandL]

theorem foldEvtl_append : ∀ (l1 l2 : STreeList) (acc : SourceRange),
    foldEvtl acc (l1.append l2) = foldEvtl (foldEvtl acc l1) l2
  | .nil, l2, acc => rfl
  | .cons x xs, l2, acc => by
    simp only [STreeList.append, foldEvtl]
    exact foldEvtl_append xs l2 _

theorem foldEvtl_congr : ∀ (l1 l2 : STreeList) (acc : SourceRange),
    l1.toList.map eventualRange = l2.toList.map eventualRange →
    foldEvtl acc l1 = foldEvtl acc l2
  | .nil, .nil, acc, _ => rfl
  | .nil, .cons y ys, acc, h => by simp [STreeList.toList] at h
  | .cons x xs, .nil, acc, h => by simp [STreeList.toList] at h
  | .cons x xs, .cons y ys, acc, h => by
    simp only [STreeList.toList, List.map_cons, List.cons.injEq] at h
    simp only [foldEvtl, h.1]
    exact foldEvtl_congr xs ys _ h.2

theorem foldEvtl_wf : ∀ (l : STreeList) (acc : SourceRange),
    acc.wfB = true → (foldEvtl acc l).wfB = true
  | .nil, acc, h => h
  | .cons x xs, acc, h => foldEvtl_wf xs _ (union_wf_left _ h)

theorem mergeBase_wf (cr : SourceRange) (ig : Option SourceRange) (h : cr.wfB = true) :
    (mergeBase cr ig).wfB = true := by
  cases ig with
  | none => exact h
  | some r => exact union_wf_left _ h

/-! ## Ordered-children machinery -/

theorem orderedListB_append : ∀ l1 l2 : STreeList, orderedListB l1 = true →
    orderedListB l2 = true → orderedListB (l1.append l2) = true
  | .nil, l2, _, h2 => h2
  | .cons x xs, l2, h1, h2 => by
    simp only [orderedListB, Bool.and_eq_true] at h1
    simp only [STreeList.append, orderedListB, Bool.and_eq_true]
    exact ⟨h1.1, orderedListB_append xs l2 h1.2 h2⟩

theorem orderedListB_mem : ∀ (l : STreeList) (c : STree), orderedListB l = true →
    c ∈ l.toList → orderedTreeB c = true
  | .nil, c, _, h => by simp [STreeList.toList] at h
  | .cons x xs, c, hl, h => by
    simp only [orderedListB, Bool.and_eq_true] at hl
    simp only [STreeList.toList, List.mem_cons] at h
    rcases h with h | h
    · subst h; exact hl.1
    · exact orderedListB_mem xs c hl.2 h

theorem orderedTreeB_parts {cr : SourceRange} {ig ca : Option SourceRange} {ex : Bool}
    {df ch : STreeList} (h : orderedTreeB (.mk cr ig ca ex df ch) = true) :
    cr.wfB = true ∧ optWfB ig = true ∧
    rangesOrderedB (((ch.append df).toList).map eventualRange) = true ∧
    orderedListB ch = true ∧ orderedListB df = true := by
  simp only [orderedTreeB, Bool.and_eq_true] at h
  exact ⟨h.1.1.1.1, h.1.1.1.2, h.1.1.2, h.1.2, h.2⟩

theorem eventualRange_wf (t : STree) (h : orderedTreeB t = true) :
    (eventualRange t).wfB = true := by
  cases t with
  | mk cr ig ca ex df ch =>
    obtain ⟨h1, h2, _, _, _⟩ := orderedTreeB_parts h
    rw [eventualRange_mk]
    exact foldEvtl_wf _ _ (mergeBase_wf cr ig h1)

theorem rangesOrderedB_append_left : ∀ (l1 l2 : List SourceRange),
    rangesOrderedB (l1 ++ l2) = true → rangesOrderedB l1 = true
  | [], _, _ => rfl
  | [_], _, _ => rfl
  | a :: b :: rest, l2, h => by
    simp only [List.cons_append, rangesOrderedB, Bool.and_eq_true] at h
    simp only [rangesOrderedB, Bool.and_eq_true]
    refine ⟨h.1, rangesOrderedB_append_left (b :: rest) l2 ?_⟩
    simpa using h.2

theorem rangesOrderedB_append_one : ∀ (l : List SourceRange) (x : SourceRange),
    rangesOrderedB l = true → (∀ r ∈ l, r.last < x.first) →
    rangesOrderedB (l ++ [x]) = true
  | [], x, _, _ => rfl
  | [a], x, _, hb => by
    simp only [List.cons_append, List.nil_append, rangesOrderedB, Bool.and_eq_true,
      decide_eq_true_eq]
    exact ⟨hb a (by simp), trivial⟩
  | a :: b :: rest, x, h, hb => by
    simp only [rangesOrderedB, Bool.and_eq_true] at h
    simp only [List.cons_append, rangesOrderedB, Bool.and_eq_true]
    refine ⟨h.1, ?_⟩
    have := rangesOrderedB_append_one (b :: rest) x h.2 (fun r hr => hb r (by simp [hr]))
    simpa using this

theorem rangesOrderedB_pairwise : ∀ l : List SourceRange,
    rangesOrderedB l = true → (∀ r ∈ l, r.wfB = true) →
    List.Pairwise (fun a b => a.last < b.first) l
  | [], _, _ => List.Pairwise.nil
  | [a], _, _ => by simp
  | a :: b :: rest, h, hw => by
    simp only [rangesOrderedB, Bool.and_eq_true, decide_eq_true_eq] at h
    have ih := rangesOrderedB_pairwise (b :: rest) h.2 (fun r hr => hw r (by simp [hr]))
    refine List.Pairwise.cons ?_ ih
    intro c hc
    rcases List.mem_cons.mp hc with h3 | h3
    · subst h3; exact h.1
    · have hbc := List.rel_of_pairwise_cons ih h3
      have hbwf : b.wfB = true := hw b (by simp)
      simp only [SourceRange.wfB, decide_eq_true_eq] at hbwf
      omega

/-- Under the discipline, the computed ranges of a node's current children
are pairwise ordered and non-overlapping. -/
theorem ordered_children_pairwise (t : STree) (h : orderedTreeB t = true) :
    List.Pairwise (fun a b => a.last < b.first)
      (t.storedChildren.toList.map computedRange) := by
  cases t with
  | mk cr ig ca ex df ch =>
    obtain ⟨_, _, hord, hch, hdf⟩ := orderedTreeB_parts h
    rw [STreeList.toList_append, List.map_append] at hord
    have hordch := rangesOrderedB_append_left _ _ hord
    have hwf : ∀ r ∈ ch.toList.map eventualRange, r.wfB = true := by
      intro r hr
      obtain ⟨c, hc, hr⟩ := List.mem_map.mp hr
      rw [← hr]
      exact eventualRange_wf c (orderedListB_mem ch c hch hc)
    have hpw := rangesOrderedB_pairwise _ hordch hwf
    have hpw2 := (List.pairwise_map).mp hpw
    simp only [STree.storedChildren]
    rw [List.pairwise_map]
    refine hpw2.imp ?_
    intro a b hab
    exact wf_containsR_before (eventualRange_contains_computed a)
      (eventualRange_contains_computed b) hab

/-! ## Preservation of the discipline by the mutations -/

theorem ord_expandNode (t : STree) (h : orderedTreeB t = true) :
    orderedTreeB (expandNode t) = true := by
  cases t with
  | mk cr ig ca ex df ch =>
    cases ex with
    | true => simpa [expandNode] using h
    | false =>
      obtain ⟨h1, h2, h3, h4, h5⟩ := orderedTreeB_parts h
      simp only [expandNode, Bool.false_eq_true, if_false, orderedTreeB, Bool.and_eq_true]
      refine ⟨⟨⟨⟨h1, h2⟩, ?_⟩, orderedListB_append ch df h4 h5⟩, rfl⟩
      rw [STreeList.append_nil]
      exact h3

theorem evtl_expandAt (p : List Nat) (t : STree) :
    eventualRange (expandAt p t) = eventualRange t := by
  show computedRange (fullyExpand _) = computedRange (fullyExpand _)
  rw [fullyExpand_expandAt p t]

theorem map_evtl_expandAtL : ∀ (k : Nat) (p : List Nat) (l : STreeList),
    (expandAtL k p l).toList.map eventualRange = l.toList.map eventualRange
  | k, p, .nil => by simp only [expandAtL]
  | 0, p, .cons c cs => by
    simp only [expandAtL, STreeList.toList, List.map_cons, evtl_expandAt p c]
  | k+1, p, .cons c cs => by
    simp only [expandAtL, STreeList.toList, List.map_cons, map_evtl_expandAtL k p cs]

mutual
theorem ord_expandAt : ∀ (p : List Nat) (t : STree),
    orderedTreeB t = true → orderedTreeB (expandAt p t) = true
  | [], t, h => by
    simp only [expandAt]
    exact ord_expandNode t h
  | k :: p, .mk cr ig ca ex df ch, h => by
    obtain ⟨h1, h2, h3, h4, h5⟩ := orderedTreeB_parts h
    simp only [expandAt, orderedTreeB, Bool.and_eq_true]
    refine ⟨⟨⟨⟨h1, h2⟩, ?_⟩, ord_expandAtL k p ch h4⟩, h5⟩
    rw [STreeList.toList_append, List.map_append, map_evtl_expandAtL k p ch]
    rw [STreeList.toList_append, List.map_append] at h3
    exact h3
theorem ord_expandAtL : ∀ (k : Nat) (p : List Nat) (l : STreeList),
    orderedListB l = true → orderedListB (expandAtL k p l) = true
  | k, p, .nil, h => by simpa only [expandAtL] using h
  | 0, p, .cons c cs, h => by
    simp only [orderedListB, Bool.and_eq_true] at h
    simp only [expandAtL, orderedListB, Bool.and_eq_true]
    exact ⟨ord_expandAt p c h.1, h.2⟩
  | k+1, p, .cons c cs, h => by
    simp only [orderedListB, Bool.and_eq_true] at h
    simp only [expandAtL, orderedListB, Bool.and_eq_true]
    exact ⟨h.1, ord_expandAtL k p cs h.2⟩
end

theorem evtl_getRangeM (t : STree) :
    eventualRange (getRangeM t).1 = eventualRange t := by
  show computedRange (fullyExpand _) = computedRange (fullyExpand _)
  rw [fullyExpand_getRangeM t]

theorem map_evtl_getRangeL : ∀ (l : STreeList) (acc : SourceRange),
    (getRangeL acc l).1.toList.map eventualRange = l.toList.map eventualRange
  | .nil, acc => by simp only [getRangeL]
  | .cons c cs, acc => by
    simp only [getRangeL, STreeList.toList, List.map_cons, evtl_getRangeM c,
      map_evtl_getRangeL cs]

mutual
theorem ord_getRangeM : ∀ t : STree,
    orderedTreeB t = true → orderedTreeB (getRangeM t).1 = true
  | .mk cr ig ca ex df ch, h => by
    obtain ⟨h1, h2, h3, h4, h5⟩ := orderedTreeB_parts h
    cases ca with
    | some r => simpa [getRangeM] using h
    | none =>
      cases ex with
      | true =>
        simp only [getRangeM, if_pos, orderedTreeB, Bool.and_eq_true]
        refine ⟨⟨⟨⟨h1, h2⟩, ?_⟩, ord_getRangeL ch _ h4⟩, h5⟩
        rw [STreeList.toList_append, List.map_append, map_evtl_getRangeL]
        rw [STreeList.toList_append, List.map_append] at h3
        exact h3
      | false =>
        simp only [getRangeM, Bool.false_eq_true, if_false, orderedTreeB, Bool.and_eq_true]
        refine ⟨⟨⟨⟨h1, h2⟩, ?_⟩,
          orderedListB_append _ _ (ord_getRangeL ch _ h4) (ord_getRangeL df _ h5)⟩, rfl⟩
        rw [STreeList.append_nil, STreeList.toList_append, List.map_append,
          map_evtl_getRangeL, map_evtl_getRangeL]
        rw [STreeList.toList_append, List.map_append] at h3
        exact h3
theorem ord_getRangeL : ∀ (l : STreeList) (acc : SourceRange),
    orderedListB l = true → orderedListB (getRangeL acc l).1 = true
  | .nil, acc, h => by simpa only [getRangeL] using h
  | .cons c cs, acc, h => by
    simp only [orderedListB, Bool.and_eq_true] at h
    simp only [getRangeL, orderedListB, Bool.and_eq_true]
    exact ⟨ord_getRangeM c h.1, ord_getRangeL cs _ h.2⟩
end

/-! ## The range query: correctness, memoization, cache behaviour -/

theorem coherent_parts {cr : SourceRange} {ig ca : Option SourceRange} {ex : Bool}
    {df ch : STreeList} (h : coherent (.mk cr ig ca ex df ch) = true) :
    cacheOkB ca ex (computedRange (.mk cr ig ca ex df ch)) = true ∧
    coherentL df = true ∧ coherentL ch = true := by
  simp only [coherent, Bool.and_eq_true] at h
  exact ⟨h.1.1, h.1.2, h.2⟩

theorem coherentL_append : ∀ l1 l2 : STreeList, coherentL l1 = true →
    coherentL l2 = true → coherentL (l1.append l2) = true
  | .nil, l2, _, h2 => h2
  | .cons x xs, l2, h1, h2 => by
    simp only [coherentL, Bool.and_eq_true] at h1
    simp only [STreeList.append, coherentL, Bool.and_eq_true]
    exact ⟨h1.1, coherentL_append xs l2 h1.2 h2⟩

mutual
theorem getRangeM_spec : ∀ t : STree, coherent t = true →
    (getRangeM t).2 = computedRange (getRangeM t).1 ∧ coherent (getRangeM t).1 = true
  | .mk cr ig ca ex df ch, h => by
    obtain ⟨hca, hdf, hch⟩ := coherent_parts h
    cases ca with
    | some r =>
      simp only [cacheOkB, Bool.and_eq_true, decide_eq_true_eq] at hca
      simp only [getRangeM]
      exact ⟨hca.2, h⟩
    | none =>
      cases ex with
      | true =>
        have hl := getRangeL_spec ch (mergeBase cr ig) hch
        simp only [getRangeM, if_pos]
        constructor
        · simp only [computedRange]
          exact hl.1
        · simp only [coherent, Bool.and_eq_true]
          refine ⟨⟨?_, hdf⟩, hl.2⟩
          simp only [cacheOkB, computedRange, Bool.and_eq_true, decide_eq_true_eq]
          exact ⟨trivial, hl.1⟩
      | false =>
        have hl1 := getRangeL_spec ch (mergeBase cr ig) hch
        have hl2 := getRangeL_spec df (getRangeL (mergeBase cr ig) ch).2 hdf
        have key : (getRangeL (getRangeL (mergeBase cr ig) ch).2 df).2 =
            computedRange (.mk cr ig (some (getRangeL (getRangeL (mergeBase cr ig) ch).2 df).2)
              true .nil ((getRangeL (mergeBase cr ig) ch).1.append
                (getRangeL (getRangeL (mergeBase cr ig) ch).2 df).1)) := by
          simp only [computedRange]
          rw [unionChildren_append, ← hl1.1, ← hl2.1]
        simp only [getRangeM, Bool.false_eq_true, if_false]
        constructor
        · exact key
        · simp only [coherent, Bool.and_eq_true]
          refine ⟨⟨?_, by simp only [coherentL]⟩, coherentL_append _ _ hl1.2 hl2.2⟩
          simp only [cacheOkB, Bool.and_eq_true, decide_eq_true_eq]
          exact ⟨trivial, key⟩
theorem getRangeL_spec : ∀ (l : STreeList) (acc : SourceRange), coherentL l = true →
    (getRangeL acc l).2 = unionChildren acc (getRangeL acc l).1 ∧
    coherentL (getRangeL acc l).1 = true
  | .nil, acc, _ => by
    refine ⟨?_, ?_⟩
    · simp only [getRangeL, unionChildren]
    · simp only [getRangeL, coherentL]
  | .cons c cs, acc, h => by
    simp only [coherentL, Bool.and_eq_true] at h
    have ht := getRangeM_spec c h.1
    have hl := getRangeL_spec cs (acc.union (getRangeM c).2) h.2
    simp only [getRangeL, unionChildren, coherentL, Bool.and_eq_true]
    refine ⟨?_, ht.2, hl.2⟩
    rw [hl.1, ht.1]
end

theorem getRangeM_cached : ∀ t : STree,
    (getRangeM t).1.cachedSourceRange = some (getRangeM t).2
  | .mk cr ig ca ex df ch => by
    cases ca with
    | some r => simp [getRangeM, STree.cachedSourceRange]
    | none =>
      cases ex with
      | true => simp [getRangeM, STree.cachedSourceRange]
      | false => simp [getRangeM, STree.cachedSourceRange]

theorem getRangeM_memo (t : STree) : getRangeM (getRangeM t).1 = getRangeM t := by
  have hc := getRangeM_cached t
  rcases hr : (getRangeM t).1 with ⟨cr, ig, ca, ex, df, ch⟩
  rw [hr] at hc
  simp only [STree.cachedSourceRange] at hc
  rw [hc]
  simp only [getRangeM]
  rw [← hc, ← hr]

theorem getRangeM_expanded (t : STree) (h : coherent t = true) :
    (getRangeM t).1.expanded = true := by
  rcases t with ⟨cr, ig, ca, ex, df, ch⟩
  obtain ⟨hca, _, _⟩ := coherent_parts h
  cases ca with
  | some r =>
    simp only [cacheOkB, Bool.and_eq_true] at hca
    simpa [getRangeM, STree.expanded] using hca.1
  | none =>
    cases ex with
    | true => simp [getRangeM, STree.expanded]
    | false => simp [getRangeM, STree.expanded]

/-! ## Appending a child -/

theorem addChildAtL_get?_self : ∀ (k : Nat) (p : List Nat) (c : STree) (l : STreeList),
    (addChildAtL k p c l).get? k = (l.get? k).map (addChildAt p c)
  | k, p, c, .nil => by
    cases k with
    | zero => simp only [addChildAtL, STreeList.get?, Option.map_none']
    | succ k => simp only [addChildAtL, STreeList.get?, Option.map_none']
  | 0, p, c, .cons x xs => by
    simp only [addChildAtL, STreeList.get?, Option.map_some']
  | k+1, p, c, .cons x xs => by
    simp only [addChildAtL, STreeList.get?]
    exact addChildAtL_get?_self k p c xs

theorem addChildAt_clears : ∀ (q r : List Nat) (c t n : STree),
    subtreeAt q (addChildAt (q ++ r) c t) = some n → n.cachedSourceRange = none
  | [], r, c, t, n, h => by
    simp only [List.nil_append, subtreeAt, Option.some.injEq] at h
    rw [← h]
    cases r with
    | nil => rcases t with ⟨cr, ig, ca, ex, df, ch⟩; simp [addChildAt, STree.cachedSourceRange]
    | cons k r =>
      rcases t with ⟨cr, ig, ca, ex, df, ch⟩
      simp [addChildAt, STree.cachedSourceRange]
  | k :: q, r, c, t, n, h => by
    rcases t with ⟨cr, ig, ca, ex, df, ch⟩
    simp only [List.cons_append, addChildAt, subtreeAt] at h
    rw [addChildAtL_get?_self] at h
    cases hx : ch.get? k with
    | none => rw [hx] at h; simp at h
    | some x =>
      rw [hx] at h
      simp only [Option.map_some'] at h
      exact addChildAt_clears q r c x n h

theorem map_evtl_addChildAtL : ∀ (k : Nat) (p : List Nat) (c : STree) (l : STreeList)
    (x : STree), l.get? k = some x →
    eventualRange (addChildAt p c x) = eventualRange x →
    (addChildAtL k p c l).toList.map eventualRange = l.toList.map eventualRange
  | k, p, c, .nil, x, hx, _ => by cases k <;> simp [STreeList.get?] at hx
  | 0, p, c, .cons y ys, x, hx, he => by
    simp only [STreeList.get?, Option.some.injEq] at hx
    simp only [addChildAtL, STreeList.toList, List.map_cons]
    rw [hx, he]
  | k+1, p, c, .cons y ys, x, hx, he => by
    simp only [STreeList.get?] at hx
    simp only [addChildAtL, STreeList.toList, List.map_cons]
    rw [map_evtl_addChildAtL k p c ys x hx he]

theorem ordL_addChildAtL : ∀ (k : Nat) (p : List Nat) (c : STree) (l : STreeList),
    orderedListB l = true →
    (∀ x : STree, l.get? k = some x → orderedTreeB (addChildAt p c x) = true) →
    orderedListB (addChildAtL k p c l) = true
  | k, p, c, .nil, h, _ => by cases k <;> simpa only [addChildAtL] using h
  | 0, p, c, .cons y ys, h, hx => by
    simp only [orderedListB, Bool.and_eq_true] at h
    simp only [addChildAtL, orderedListB, Bool.and_eq_true]
    exact ⟨hx y rfl, h.2⟩
  | k+1, p, c, .cons y ys, h, hx => by
    simp only [orderedListB, Bool.and_eq_true] at h
    simp only [addChildAtL, orderedListB, Bool.and_eq_true]
    exact ⟨h.1, ordL_addChildAtL k p c ys h.2 (fun x h2 => hx x h2)⟩

/-- Appending a child under the creator discipline — the appended subtree is
itself disciplined, it fits inside the eventual range of the target, it comes
after every present kid of the target, and the target has drained its
deferred list — preserves the discipline and leaves every eventual range
unchanged. -/
theorem addChild_ordered : ∀ (p : List Nat) (t c n : STree),
    subtreeAt p t = some n → n.deferredNodes = .nil →
    orderedTreeB t = true → orderedTreeB c = true →
    (eventualRange n).containsR (eventualRange c) = true →
    (∀ k ∈ n.storedChildren.toList, (eventualRange k).last < (eventualRange c).first) →
    orderedTreeB (addChildAt p c t) = true ∧
    eventualRange (addChildAt p c t) = eventualRange t
  | [], t, c, n, hsub, hdf, ht, hc, hfit, hafter => by
    simp only [subtreeAt, Option.some.injEq] at hsub
    subst hsub
    rcases t with ⟨cr, ig, ca, ex, df, ch⟩
    simp only [STree.deferredNodes] at hdf
    subst hdf
    obtain ⟨h1, h2, h3, h4, h5⟩ := orderedTreeB_parts ht
    rw [STreeList.append_nil] at h3
    simp only [STree.storedChildren] at hafter
    have hfit2 : (foldEvtl (mergeBase cr ig) ch).containsR (eventualRange c) = true := by
      rw [eventualRange_mk, STreeList.append_nil] at hfit
      exact hfit
    have hev : eventualRange (addChildAt [] c (.mk cr ig ca ex .nil ch)) =
        eventualRange (.mk cr ig ca ex .nil ch) := by
      simp only [addChildAt]
      rw [eventualRange_mk, eventualRange_mk, STreeList.append_nil, STreeList.append_nil,
        foldEvtl_append]
      simp only [foldEvtl]
      exact union_absorb hfit2
    refine ⟨?_, hev⟩
    simp only [addChildAt, orderedTreeB, Bool.and_eq_true]
    refine ⟨⟨⟨⟨h1, h2⟩, ?_⟩, ?_⟩, by simp only [orderedListB]⟩
    · rw [STreeList.append_nil, STreeList.toList_append, List.map_append]
      simp only [STreeList.toList, List.map_cons, List.map_nil]
      exact rangesOrderedB_append_one _ _ h3 (by
        intro r hr
        obtain ⟨y, hy, hyr⟩ := List.mem_map.mp hr
        rw [← hyr]
        exact hafter y hy)
    · refine orderedListB_append ch _ h4 ?_
      simp only [orderedListB, Bool.and_eq_true]
      exact ⟨hc, by simp only [orderedListB]⟩
  | k :: p, t, c, n, hsub, hdf, ht, hc, hfit, hafter => by
    rcases t with ⟨cr, ig, ca, ex, df, ch⟩
    obtain ⟨h1, h2, h3, h4, h5⟩ := orderedTreeB_parts ht
    cases hx : ch.get? k with
    | none =>
      simp only [subtreeAt, hx] at hsub
      exact absurd hsub (by simp)
    | some x =>
      simp only [subtreeAt, hx] at hsub
      have hordx : orderedTreeB x = true :=
        orderedListB_mem ch x h4 (STreeList.get?_mem ch k x hx)
      obtain ⟨hordx2, hevx⟩ := addChild_ordered p x c n hsub hdf hordx hc hfit hafter
      have hmap := map_evtl_addChildAtL k p c ch x hx hevx
      constructor
      · simp only [addChildAt, orderedTreeB, Bool.and_eq_true]
        refine ⟨⟨⟨⟨h1, h2⟩, ?_⟩, ?_⟩, h5⟩
        · rw [STreeList.toList_append, List.map_append, hmap, ← List.map_append,
            ← STreeList.toList_append]
          exact h3
        · exact ordL_addChildAtL k p c ch h4 (fun y hy => by
            rw [hx] at hy
            injection hy with hxy
            rw [← hxy]
            exact hordx2)
      · simp only [addChildAt]
        rw [eventualRange_mk, eventualRange_mk]
        apply foldEvtl_congr
        rw [STreeList.toList_append, List.map_append, hmap, ← List.map_append,
          ← STreeList.toList_append]

/-! ## Structure of the outward lookup walk -/

theorem getLookupLimit_self {t : ScopeTree} {j x : Nat}
    (h : getLookupLimit t j = some x) : x = j := by
  simp only [getLookupLimit] at h
  repeat' split at h
  all_goals simp_all

theorem lookupCont_casc {σ : Type} (t : ScopeTree)
    (recurse : Nat → Option Nat → Option Nat → Option Nat → Option Bool → σ →
      LookupOutcome σ)
    (i : Nat) (sc : Scope) (selfDC limit2 already2 : Option Nat) (casc : Option Bool)
    (st : σ) (steps0 : List (Option Nat)) (searched0 : List Nat)
    (batches0 : List (List FoundDecl))
    (hsc : t.scopes.get? i = some sc)
    (ih : ∀ (j : Nat) (sd lim al : Option Nat) (c : Option Bool) (s : σ),
      (recurse j sd lim al c s).isCascadingUse =
      (recurse j sd lim al c s).foldedScopes.foldl
        (fun cc jj => resolveCascadingAt t jj cc) c) :
    (lookupCont t recurse i sc selfDC limit2 already2 casc st steps0 searched0
        batches0).isCascadingUse =
    (lookupCont t recurse i sc selfDC limit2 already2 casc st steps0 searched0
        batches0).foldedScopes.foldl (fun cc jj => resolveCascadingAt t jj cc) casc := by
  simp only [lookupCont]
  split
  · simp
  · split
    · simp
    · rename_i p hp
      simp only [List.foldl_cons]
      rw [ih]
      congr 1
      simp only [resolveCascadingAt, hsc]

theorem lookupGo_casc {σ : Type} (t : ScopeTree) (consume : σ → List FoundDecl → σ × Bool) :
    ∀ (fuel i : Nat) (selfDC limit already : Option Nat) (casc : Option Bool) (st : σ),
    (lookupGo t consume fuel i selfDC limit already casc st).isCascadingUse =
    (lookupGo t consume fuel i selfDC limit already casc st).foldedScopes.foldl
      (fun cc jj => resolveCascadingAt t jj cc) casc
  | 0, i, selfDC, limit, already, casc, st => by simp [lookupGo]
  | fuel+1, i, selfDC, limit, already, casc, st => by
    have ih : ∀ (j : Nat) (sd lim al : Option Nat) (c : Option Bool) (s : σ),
        (lookupGo t consume fuel j sd lim al c s).isCascadingUse =
        (lookupGo t consume fuel j sd lim al c s).foldedScopes.foldl
          (fun cc jj => resolveCascadingAt t jj cc) c :=
      fun j sd lim al c s => lookupGo_casc t consume fuel j sd lim al c s
    simp only [lookupGo]
    split
    · simp
    · rename_i sc hsc
      split
      · simp
      · split
        · rename_i d hd
          split
          · exact lookupCont_casc t _ i sc selfDC _ _ casc _ _ _ _ hsc ih
          · split
            · simp
            · exact lookupCont_casc t _ i sc selfDC _ _ casc _ _ _ _ hsc ih
        · exact lookupCont_casc t _ i sc selfDC _ _ casc _ _ _ _ hsc ih

theorem lookupCont_state {σ : Type} (t : ScopeTree) (consume : σ → List FoundDecl → σ × Bool)
    (recurse : Nat → Option Nat → Option Nat → Option Nat → Option Bool → σ →
      LookupOutcome σ)
    (i : Nat) (sc : Scope) (selfDC limit2 already2 : Option Nat) (casc : Option Bool)
    (st st0 : σ) (steps0 : List (Option Nat)) (searched0 : List Nat)
    (batches0 : List (List FoundDecl))
    (hst : st = batches0.foldl (fun s b => (consume s b).1) st0)
    (ih : ∀ (j : Nat) (sd lim al : Option Nat) (c : Option Bool) (s : σ),
      (recurse j sd lim al c s).consumerState =
      (recurse j sd lim al c s).offeredBatches.foldl
        (fun s b => (consume s b).1) s) :
    (lookupCont t recurse i sc selfDC limit2 already2 casc st steps0 searched0
        batches0).consumerState =
    (lookupCont t recurse i sc selfDC limit2 already2 casc st steps0 searched0
        batches0).offeredBatches.foldl (fun s b => (consume s b).1) st0 := by
  simp only [lookupCont]
  split
  · simpa using hst
  · split
    · simpa using hst
    · rename_i p hp
      simp only [List.foldl_append]
      rw [← hst]
      exact ih p _ _ _ _ st

theorem lookupGo_state {σ : Type} (t : ScopeTree) (consume : σ → List FoundDecl → σ × Bool) :
    ∀ (fuel i : Nat) (selfDC limit already : Option Nat) (casc : Option Bool) (st : σ),
    (lookupGo t consume fuel i selfDC limit already casc st).consumerState =
    (lookupGo t consume fuel i selfDC limit already casc st).offeredBatches.foldl
      (fun s b => (consume s b).1) st
  | 0, i, selfDC, limit, already, casc, st => by simp [lookupGo]
  | fuel+1, i, selfDC, limit, already, casc, st => by
    have ih : ∀ (j : Nat) (sd lim al : Option Nat) (c : Option Bool) (s : σ),
        (lookupGo t consume fuel j sd lim al c s).consumerState =
        (lookupGo t consume fuel j sd lim al c s).offeredBatches.foldl
          (fun s b => (consume s b).1) s :=
      fun j sd lim al c s => lookupGo_state t consume fuel j sd lim al c s
    simp only [lookupGo]
    split
    · simp
    · rename_i sc hsc
      split
      · simp
      · split
        · rename_i d hd
          split
          · exact lookupCont_state t consume _ i sc selfDC _ _ casc _ st _ _ _
              (by simp) ih
          · split
            · simp
            · exact lookupCont_state t consume _ i sc selfDC _ _ casc _ st _ _ _
                (by simp) ih
        · exact lookupCont_state t consume _ i sc selfDC _ _ casc _ st _ _ _
            (by simp) ih

theorem getLast?_cons_of_ne_nil {α : Type} (a : α) {l : List α} (h : l ≠ []) :
    (a :: l).getLast? = l.getLast? := by
  cases l with
  | nil => exact absurd rfl h
  | cons b m => exact List.getLast?_cons_cons

theorem lookupCont_limit {σ : Type} (t : ScopeTree)
    (recurse : Nat → Option Nat → Option Nat → Option Nat → Option Bool → σ →
      LookupOutcome σ)
    (i : Nat) (sc : Scope) (selfDC limit2 already2 : Option Nat) (casc : Option Bool)
    (st : σ) (steps0 : List (Option Nat)) (searched0 : List Nat)
    (batches0 : List (List FoundDecl))
    (hself : getLookupLimit t i = some i → limit2 = some i)
    (hlim : limit2 = none ∨ limit2 = some i)
    (ih : ∀ (j : Nat) (sd al : Option Nat) (c : Option Bool) (s : σ),
      ∀ ℓ ∈ (recurse j sd none al c s).visited,
      getLookupLimit t ℓ = some ℓ →
      (recurse j sd none al c s).visited.getLast? = some ℓ) :
    ∀ ℓ ∈ (lookupCont t recurse i sc selfDC limit2 already2 casc st steps0 searched0
        batches0).visited,
    getLookupLimit t ℓ = some ℓ →
    (lookupCont t recurse i sc selfDC limit2 already2 casc st steps0 searched0
        batches0).visited.getLast? = some ℓ := by
  simp only [lookupCont]
  split
  · intro ℓ hℓ _
    simp_all
  · rename_i hni
    split
    · intro ℓ hℓ _
      simp_all
    · rename_i x p hp
      intro ℓ hℓ hℓlim
      have hl2 : limit2 = none := by
        rcases hlim with h | h
        · exact h
        · exact absurd h hni
      subst hl2
      simp only at hℓ ⊢
      rcases List.mem_cons.mp hℓ with h | hmem
      · subst h
        exact absurd (hself hℓlim) (by simp)
      · have hres := ih p _ _ _ _ ℓ hmem hℓlim
        rw [getLast?_cons_of_ne_nil i (List.ne_nil_of_mem hmem)]
        exact hres

theorem lookupGo_limit {σ : Type} (t : ScopeTree) (consume : σ → List FoundDecl → σ × Bool) :
    ∀ (fuel i : Nat) (selfDC already : Option Nat) (casc : Option Bool) (st : σ),
    ∀ ℓ ∈ (lookupGo t consume fuel i selfDC none already casc st).visited,
    getLookupLimit t ℓ = some ℓ →
    (lookupGo t consume fuel i selfDC none already casc st).visited.getLast? = some ℓ
  | 0, i, selfDC, already, casc, st => by simp [lookupGo]
  | fuel+1, i, selfDC, already, casc, st => by
    have ih : ∀ (j : Nat) (sd al : Option Nat) (c : Option Bool) (s : σ),
        ∀ ℓ ∈ (lookupGo t consume fuel j sd none al c s).visited,
        getLookupLimit t ℓ = some ℓ →
        (lookupGo t consume fuel j sd none al c s).visited.getLast? = some ℓ :=
      fun j sd al c s => lookupGo_limit t consume fuel j sd al c s
    have hself : getLookupLimit t i = some i →
        (none <|> getLookupLimit t i : Option Nat) = some i := fun h => by simp [h]
    have hlim : (none <|> getLookupLimit t i : Option Nat) = none ∨
        (none <|> getLookupLimit t i : Option Nat) = some i := by
      cases hgl : getLookupLimit t i with
      | none => left; simp
      | some x =>
        right
        have hx := getLookupLimit_self hgl
        subst hx
        simp [hgl]
    simp only [lookupGo]
    split
    · simp
    · rename_i sc hsc
      split
      · intro ℓ hℓ _
        simp_all
      · split
        · rename_i d hd
          split
          · exact lookupCont_limit t _ i sc selfDC _ _ casc _ _ _ _ hself hlim ih
          · split
            · intro ℓ hℓ _
              simp_all
            · exact lookupCont_limit t _ i sc selfDC _ _ casc _ _ _ _
                hself hlim ih
        · exact lookupCont_limit t _ i sc selfDC _ _ casc _ _ _ _ hself hlim ih

theorem lookupCont_steps {σ : Type} (t : ScopeTree)
    (recurse : Nat → Option Nat → Option Nat → Option Nat → Option Bool → σ →
      LookupOutcome σ)
    (i : Nat) (sc : Scope) (selfDC limit2 already2 : Option Nat) (casc : Option Bool)
    (st : σ) (steps0 : List (Option Nat)) (searched0 : List Nat)
    (batches0 : List (List FoundDecl))
    (hs0 : ∀ d : Nat, some d ∈ steps0 → d ∈ searched0 ∨ already2 = some d)
    (ih : ∀ (j : Nat) (sd lim al : Option Nat) (c : Option Bool) (s : σ) (d : Nat),
      some d ∈ (recurse j sd lim al c s).searchSteps →
      d ∈ (recurse j sd lim al c s).searched ∨ al = some d) :
    (∀ d : Nat, some d ∈ (lookupCont t recurse i sc selfDC limit2 already2 casc st
        steps0 searched0 batches0).searchSteps →
      d ∈ (lookupCont t recurse i sc selfDC limit2 already2 casc st steps0 searched0
        batches0).searched ∨ already2 = some d) ∧
    (∀ x ∈ searched0, x ∈ (lookupCont t recurse i sc selfDC limit2 already2 casc st
        steps0 searched0 batches0).searched) := by
  simp only [lookupCont]
  split
  · exact ⟨hs0, fun x hx => hx⟩
  · split
    · exact ⟨hs0, fun x hx => hx⟩
    · rename_i x p hp
      constructor
      · intro d hd
        simp only [List.mem_append] at hd ⊢
        rcases hd with hd | hd
        · rcases hs0 d hd with h | h
          · exact Or.inl (Or.inl h)
          · exact Or.inr h
        · rcases ih p _ _ _ _ _ d hd with h | h
          · exact Or.inl (Or.inr h)
          · exact Or.inr h
      · intro y hy
        simp only [List.mem_append]
        exact Or.inl hy

theorem lookupGo_steps {σ : Type} (t : ScopeTree) (consume : σ → List FoundDecl → σ × Bool) :
    ∀ (fuel i : Nat) (selfDC limit already : Option Nat) (casc : Option Bool) (st : σ)
    (d : Nat),
    some d ∈ (lookupGo t consume fuel i selfDC limit already casc st).searchSteps →
    d ∈ (lookupGo t consume fuel i selfDC limit already casc st).searched ∨
      already = some d
  | 0, i, selfDC, limit, already, casc, st => by simp [lookupGo]
  | fuel+1, i, selfDC, limit, already, casc, st => by
    have ih : ∀ (j : Nat) (sd lim al : Option Nat) (c : Option Bool) (s : σ) (d : Nat),
        some d ∈ (lookupGo t consume fuel j sd lim al c s).searchSteps →
        d ∈ (lookupGo t consume fuel j sd lim al c s).searched ∨ al = some d :=
      fun j sd lim al c s => lookupGo_steps t consume fuel j sd lim al c s
    simp only [lookupGo]
    split
    · simp
    · rename_i sc hsc
      split
      · simp
      · split
        · rename_i d0 hd0
          split
          · rename_i hal
            intro d hd
            rcases (lookupCont_steps t _ i sc selfDC _ _ casc _ _ _ _
              (fun d2 hd2 => by
                simp only [List.mem_singleton, Option.some.injEq] at hd2
                exact Or.inr (by rw [hal, hd2])) ih).1 d hd with h | h
            · exact Or.inl h
            · exact Or.inr h
          · rename_i hal
            split
            · intro d hd
              simp only [List.mem_singleton, Option.some.injEq] at hd
              exact Or.inl (by simp [hd])
            · intro d hd
              have hcont := lookupCont_steps t
                (fun p sd lim al c s => lookupGo t consume fuel p sd lim al c s)
                i sc selfDC
                (limit <|> getLookupLimit t i) (some d0) casc
                (consume (consume st ((lookupLocalBindings sc.kind).map fun nv =>
                  FoundDecl.mk nv.1 nv.2 i)).1 ((selfTypeContribution t d0).map fun nv =>
                  FoundDecl.mk nv.1 nv.2 i)).1
                [some d0] [d0]
                [(lookupLocalBindings sc.kind).map fun nv => FoundDecl.mk nv.1 nv.2 i,
                 (selfTypeContribution t d0).map fun nv => FoundDecl.mk nv.1 nv.2 i]
                (fun d2 hd2 => by
                  simp only [List.mem_singleton, Option.some.injEq] at hd2
                  exact Or.inl (by simp [hd2])) ih
              rcases hcont.1 d hd with h | h
              · exact Or.inl h
              · simp only [Option.some.injEq] at h
                exact Or.inl (by
                  rw [← h]
                  exact hcont.2 d0 (by simp))
        · intro d hd
          rcases (lookupCont_steps t _ i sc selfDC _ _ casc _ [none] [] _
            (fun d2 hd2 => by simp at hd2) ih).1 d hd with h | h
          · exact Or.inl h
          · exact Or.inr h

theorem lookupCont_nodup {σ : Type} (t : ScopeTree)
    (recurse : Nat → Option Nat → Option Nat → Option Nat → Option Bool → σ →
      LookupOutcome σ)
    (i : Nat) (sc : Scope) (selfDC limit2 already2 : Option Nat) (casc : Option Bool)
    (st : σ) (steps0 : List (Option Nat)) (searched0 : List Nat)
    (batches0 : List (List FoundDecl)) (used used2 : List Nat) (already : Option Nat)
    (hstep : ∀ rest : List (Option Nat),
      groupedSteps used already (steps0 ++ rest) = true →
      groupedSteps used2 already2 rest = true ∧ searched0.Nodup ∧
      (∀ x ∈ searched0, x ∉ used) ∧ (∀ x ∈ searched0, x ∈ used2))
    (husedsub : ∀ x ∈ used, x ∈ used2)
    (ih : ∀ (j : Nat) (sd lim : Option Nat) (c : Option Bool) (s : σ) (u : List Nat),
      groupedSteps u already2
        (recurse j sd lim already2 c s).searchSteps = true →
      (recurse j sd lim already2 c s).searched.Nodup ∧
      ∀ x ∈ (recurse j sd lim already2 c s).searched, x ∉ u) :
    groupedSteps used already (lookupCont t recurse i sc selfDC limit2 already2 casc st
      steps0 searched0 batches0).searchSteps = true →
    (lookupCont t recurse i sc selfDC limit2 already2 casc st steps0 searched0
      batches0).searched.Nodup ∧
    ∀ x ∈ (lookupCont t recurse i sc selfDC limit2 already2 casc st steps0 searched0
      batches0).searched, x ∉ used := by
  simp only [lookupCont]
  split
  · intro hgrp
    have h0 := hstep [] (by simpa using hgrp)
    exact ⟨h0.2.1, h0.2.2.1⟩
  · split
    · intro hgrp
      have h0 := hstep [] (by simpa using hgrp)
      exact ⟨h0.2.1, h0.2.2.1⟩
    · rename_i x p hp
      intro hgrp
      simp only at hgrp ⊢
      obtain ⟨hrest, hn0, hu0, hnew⟩ := hstep _ hgrp
      have hres := ih p _ _ _ _ used2 hrest
      constructor
      · refine List.Nodup.append hn0 hres.1 ?_
        intro a ha hb
        exact hres.2 a hb (hnew a ha)
      · intro y hy
        rcases List.mem_append.mp hy with h | h
        · exact hu0 y h
        · intro hyu
          exact hres.2 y h (husedsub y hyu)

theorem lookupGo_nodup {σ : Type} (t : ScopeTree) (consume : σ → List FoundDecl → σ × Bool) :
    ∀ (fuel i : Nat) (selfDC limit already : Option Nat) (casc : Option Bool) (st : σ)
    (used : List Nat),
    groupedSteps used already
      (lookupGo t consume fuel i selfDC limit already casc st).searchSteps = true →
    (lookupGo t consume fuel i selfDC limit already casc st).searched.Nodup ∧
    ∀ x ∈ (lookupGo t consume fuel i selfDC limit already casc st).searched, x ∉ used
  | 0, i, selfDC, limit, already, casc, st => by
    intro used _
    simp [lookupGo]
  | fuel+1, i, selfDC, limit, already, casc, st => by
    intro used
    have ihg : ∀ (j : Nat) (sd lim al : Option Nat) (c : Option Bool) (s : σ)
        (u : List Nat),
        groupedSteps u al (lookupGo t consume fuel j sd lim al c s).searchSteps = true →
        (lookupGo t consume fuel j sd lim al c s).searched.Nodup ∧
        ∀ x ∈ (lookupGo t consume fuel j sd lim al c s).searched, x ∉ u :=
      fun j sd lim al c s u => lookupGo_nodup t consume fuel j sd lim al c s u
    simp only [lookupGo]
    split
    · intro _
      simp
    · rename_i sc hsc
      split
      · intro _
        simp
      · split
        · rename_i d0 hd0
          split
          · rename_i hal
            exact lookupCont_nodup t _ i sc selfDC _ _ casc _ _ _ _ used used
              already
              (fun rest hr => by
                rw [hal] at hr ⊢
                refine ⟨by simpa [groupedSteps] using hr, by simp, by simp, by simp⟩)
              (fun x hx => hx)
              (fun j sd lim c s u => ihg j sd lim already c s u)
          · rename_i hal
            split
            · intro hg
              simp only [groupedSteps, if_neg hal, Bool.and_eq_true, decide_eq_true_eq]
                at hg
              refine ⟨by simp, ?_⟩
              intro x hx
              simp only [List.mem_singleton] at hx
              rw [hx]
              exact hg.1
            · exact lookupCont_nodup t _ i sc selfDC _ _ casc _ _ _ _ used
                (d0 :: used) already
                (fun rest hr => by
                  simp only [List.singleton_append, groupedSteps, if_neg hal,
                    Bool.and_eq_true, decide_eq_true_eq] at hr
                  refine ⟨hr.2, by simp, ?_, by simp⟩
                  intro x hx
                  simp only [List.mem_singleton] at hx
                  rw [hx]
                  exact hr.1)
                (fun x hx => List.mem_cons_of_mem d0 hx)
                (fun j sd lim c s u => ihg j sd lim (some d0) c s u)
        · exact lookupCont_nodup t _ i sc selfDC _ _ casc _ _ _ _ used used
            already
            (fun rest hr => by
              refine ⟨by simpa [groupedSteps] using hr, by simp, by simp, by simp⟩)
            (fun x hx => hx)
            (fun j sd lim c s u => ihg j sd lim already c s u)

/-! ## The generic-parameter chain creator -/

theorem get?_append_lt {α : Type} : ∀ (l1 l2 : List α) (j : Nat), j < l1.length →
    (l1 ++ l2).get? j = l1.get? j
  | [], _, j, h => absurd h (by simp)
  | _ :: m, l2, 0, _ => rfl
  | _ :: m, l2, j+1, h => get?_append_lt m l2 j (by simpa using h)

theorem get?_len_append {α : Type} (a : α) : ∀ l : List α, (l ++ [a]).get? l.length = some a
  | [] => rfl
  | _ :: m => get?_len_append a m

theorem get?_append_eq_len {α : Type} (a : α) (l : List α) (j : Nat) (h : j = l.length) :
    (l ++ [a]).get? j = some a := by
  subst h
  exact get?_len_append a l

theorem addChildLink_scopes_length (t : ScopeTree) (p c : Nat) :
    (addChildLink t p c).scopes.length = t.scopes.length := by
  unfold addChildLink
  split
  · rfl
  · simp

theorem addChildLink_parentKind (t : ScopeTree) (p c j : Nat) :
    ((addChildLink t p c).scopes.get? j).map (fun s => (s.parent, s.kind)) =
    (t.scopes.get? j).map (fun s => (s.parent, s.kind)) := by
  unfold addChildLink
  split
  · rfl
  · rename_i sp hsp
    by_cases hj : p = j
    · subst hj
      simp only [List.get?_set_eq, hsp]
      rfl
    · simp only [List.get?_set_ne _ _ hj]

theorem createGPC_length (holder : Nat) (range : SourceRange) :
    ∀ (ps : List String) (idx parentId : Nat) (t : ScopeTree),
    (createGenericParamChain holder range ps idx parentId t).1.scopes.length =
    t.scopes.length + ps.length
  | [], idx, parentId, t => by simp [createGenericParamChain]
  | p :: rest, idx, parentId, t => by
    simp only [createGenericParamChain]
    rw [createGPC_length holder range rest (idx+1) _ _]
    simp only [List.length_append, List.length_cons, List.length_nil,
      addChildLink_scopes_length, List.length_cons]
    omega

theorem createGPC_stable (holder : Nat) (range : SourceRange) :
    ∀ (ps : List String) (idx parentId : Nat) (t : ScopeTree) (j : Nat),
    j < t.scopes.length →
    ((createGenericParamChain holder range ps idx parentId t).1.scopes.get? j).map
      (fun s => (s.parent, s.kind)) =
    (t.scopes.get? j).map (fun s => (s.parent, s.kind))
  | [], idx, parentId, t, j, hj => by simp [createGenericParamChain]
  | p :: rest, idx, parentId, t, j, hj => by
    simp only [createGenericParamChain]
    rw [createGPC_stable holder range rest (idx+1) _ _ j (by
      simp only [List.length_append, List.length_cons, List.length_nil,
        addChildLink_scopes_length]
      omega)]
    dsimp only
    rw [get?_append_lt _ _ j (by rw [addChildLink_scopes_length]; exact hj)]
    exact addChildLink_parentKind t parentId _ j

theorem createGPC_spec (holder : Nat) (range : SourceRange) :
    ∀ (ps : List String) (idx parentId : Nat) (t : ScopeTree) (k : Nat)
    (hk : k < ps.length),
    ((createGenericParamChain holder range ps idx parentId t).1.scopes.get?
        (t.scopes.length + k)).map (fun s => (s.parent, s.kind)) =
    some (some (if k = 0 then parentId else t.scopes.length + k - 1),
      .genericParam holder (ps.get ⟨k, hk⟩) (idx + k))
  | [], _, _, _, k, hk => absurd hk (by simp)
  | p :: rest, idx, parentId, t, 0, hk => by
    simp only [createGenericParamChain, Nat.add_zero]
    rw [createGPC_stable holder range rest (idx+1) _ _ t.scopes.length (by
      simp only [List.length_append, List.length_cons, List.length_nil,
        addChildLink_scopes_length]
      omega)]
    dsimp only
    rw [get?_append_eq_len _ _ _ (addChildLink_scopes_length t parentId t.scopes.length).symm]
    simp
  | p :: rest, idx, parentId, t, k+1, hk => by
    simp only [createGenericParamChain]
    have hstep := createGPC_spec holder range rest (idx+1) t.scopes.length
      { addChildLink t parentId t.scopes.length with
        scopes := (addChildLink t parentId t.scopes.length).scopes ++
          [{ parent := some parentId, range := range, children := [],
             kind := .genericParam holder p idx }] } k (by simpa using hk)
    have hlen1 : ({ addChildLink t parentId t.scopes.length with
        scopes := (addChildLink t parentId t.scopes.length).scopes ++
          [{ parent := some parentId, range := range, children := [],
             kind := .genericParam holder p idx }] } : ScopeTree).scopes.length =
        t.scopes.length + 1 := by
      simp [addChildLink_scopes_length]
    rw [hlen1] at hstep
    have hidx : t.scopes.length + 1 + k = t.scopes.length + (k + 1) := by omega
    rw [hidx] at hstep
    have hif : (if k = 0 then t.scopes.length else t.scopes.length + (k + 1) - 1) =
        t.scopes.length + (k + 1) - 1 := by
      cases k with
      | zero => simp
      | succ n => simp
    rw [hif] at hstep
    have hidx2 : idx + 1 + k = idx + (k + 1) := by omega
    rw [hidx2] at hstep
    have hget : rest.get ⟨k, by simpa using hk⟩ = (p :: rest).get ⟨k + 1, hk⟩ := rfl
    rw [hget] at hstep
    have hif2 : (if k + 1 = 0 then parentId else t.scopes.length + (k + 1) - 1) =
        t.scopes.length + (k + 1) - 1 := by simp
    rw [hif2]
    exact hstep

/-! ## Idempotence of the lazy-expansion transition -/

theorem expandNode_idem (t : STree) : expandNode (expandNode t) = expandNode t := by
  rcases t with ⟨cr, ig, ca, ex, df, ch⟩
  cases ex with
  | true => simp [expandNode]
  | false => simp [expandNode]

theorem expandNode_of_expanded (t : STree) (h : t.expanded = true) : expandNode t = t := by
  rcases t with ⟨cr, ig, ca, ex, df, ch⟩
  simp only [STree.expanded] at h
  simp [expandNode, h]

mutual
theorem expandAt_idem : ∀ (p : List Nat) (t : STree),
    expandAt p (expandAt p t) = expandAt p t
  | [], t => by
    simp only [expandAt]
    exact expandNode_idem t
  | k :: p, .mk cr ig ca ex df ch => by
    simp only [expandAt]
    rw [expandAtL_idem k p ch]
theorem expandAtL_idem : ∀ (k : Nat) (p : List Nat) (l : STreeList),
    expandAtL k p (expandAtL k p l) = expandAtL k p l
  | k, p, .nil => by simp only [expandAtL]
  | 0, p, .cons c cs => by simp only [expandAtL, expandAt_idem p c]
  | k+1, p, .cons c cs => by simp only [expandAtL, expandAtL_idem k p cs]
end

/-! # Claim theorems -/

set_option maxRecDepth 200000 in
/-- C1: for a lookup starting at any location inside the body of a type
declared lexically inside another type's body (here the inner struct, decl 1,
with `declaredInTypeBody`), the outward walk stops at the inner type's
lookup-limit scope — scope 4, the inner type's whole scope, which is the
last scope visited — and the outer type's instance member `m` and generic
parameter `T` are never offered via implicit self (their lookups deliver
nothing), although the inner type's range is contained in the outer's.  The
inner member `n` is found, and `m` is found from a method body written
directly in the outer type, showing the member mechanism itself works. -/
theorem c1_illegal_nesting_limits_lookup (loc : Nat) (h1 : loc < 170) (h2 : 61 ≤ loc) :
    lookupMatches nestedTypeTree 20 loc "m" = [] ∧
    lookupMatches nestedTypeTree 20 loc "T" = [] ∧
    lookupMatches nestedTypeTree 20 loc "n" =
      [⟨"n", .memberOfCurrentNominal, 5⟩] ∧
    (unqualifiedLookup nestedTypeTree (targetConsumer "m") 20 loc none
      ([] : List FoundDecl)).visited = [8, 7, 6, 5, 4] ∧
    getLookupLimit nestedTypeTree 4 = some 4 ∧
    (nestedTypeTree.decls.get? 1).map DeclInfo.declaredInTypeBody = some true ∧
    lookupMatches nestedTypeTree 20 185 "m" = [⟨"m", .memberOfCurrentNominal, 3⟩] := by
  revert loc
  decide

/-- C2: the computed range of every node contains the computed range of each
of its children, in every state; under the creator discipline the children's
computed ranges are pairwise ordered and non-overlapping; and the discipline
is preserved by each mutation — lazy expansion at any node, the range query
with its cache fill, and a child append that respects the discipline (the
new subtree is disciplined, fits inside the target's eventual range, follows
every present kid, and the target has drained its deferred list), which also
leaves every eventual range unchanged. -/
theorem c2_children_contained_and_ordered (t cNew n : STree) (p : List Nat)
    (hord : orderedTreeB t = true) (hsub : subtreeAt p t = some n)
    (hdf : n.deferredNodes = .nil) (hcnew : orderedTreeB cNew = true)
    (hfit : (eventualRange n).containsR (eventualRange cNew) = true)
    (hafter : ∀ k ∈ n.storedChildren.toList,
      (eventualRange k).last < (eventualRange cNew).first) :
    (∀ s : STree, ∀ c ∈ s.storedChildren.toList,
      (computedRange s).containsR (computedRange c) = true) ∧
    (∀ s : STree, orderedTreeB s = true →
      List.Pairwise (fun a b => a.last < b.first)
        (s.storedChildren.toList.map computedRange)) ∧
    orderedTreeB (expandAt p t) = true ∧
    orderedTreeB (getRangeM t).1 = true ∧
    orderedTreeB (addChildAt p cNew t) = true ∧
    eventualRange (addChildAt p cNew t) = eventualRange t :=
  ⟨fun _ _ hc => computedRange_contains_child hc,
   fun s hs => ordered_children_pairwise s hs,
   ord_expandAt p t hord,
   ord_getRangeM t hord,
   (addChild_ordered p t cNew n hsub hdf hord hcnew hfit hafter).1,
   (addChild_ordered p t cNew n hsub hdf hord hcnew hfit hafter).2⟩

/-- C3: the continuation scope after the guard (scope 6) is a distinct node
whose lookup parent is redirected to the innermost scope of the guard's
condition (scope 4, the condition-element pattern binding `x`) rather than
its tree parent (scope 1); consequently a lookup for `x` immediately after
the guard statement succeeds (finding the binding at scope 4) and a lookup
for `x` inside the else block fails. -/
theorem c3_guard_continuation_redirect :
    getLookupParent guardTree 6 = some 4 ∧
    (guardTree.scopes.get? 6).map Scope.parent = some (some 1) ∧
    (guardTree.scopes.get? 6).map Scope.kind = some (.guardUse 4) ∧
    (guardTree.scopes.get? 4).map Scope.kind =
      some (.conditionElementPattern ["x"]) ∧
    (4 : Nat) ≠ 1 ∧
    lookupMatches guardTree 12 45 "x" = [⟨"x", .localVariable, 4⟩] ∧
    lookupMatches guardTree 12 35 "x" = [] := by
  decide

/-- C4: the generic-parameter creator makes exactly one scope per parameter
(the arena grows by the length of the list), parameter `k`'s scope is a
child of parameter `k-1`'s scope (of the original parent for `k = 0`), and
each scope's local bindings are exactly its own parameter; hence for
parameters `A` and `B` with `B : A`, a lookup for `A` from inside `B`'s
bound succeeds and a lookup for `B` from inside `A`'s bound fails. -/
theorem c4_generic_param_chain (holder : Nat) (range : SourceRange) (ps : List String)
    (idx parentId : Nat) (t : ScopeTree) (k : Nat) (name : String)
    (hk : k < ps.length) (hname : ps.get? k = some name) :
    (createGenericParamChain holder range ps idx parentId t).1.scopes.length =
      t.scopes.length + ps.length ∧
    ((createGenericParamChain holder range ps idx parentId t).1.scopes.get?
        (t.scopes.length + k)).map (fun s => (s.parent, s.kind)) =
      some (some (if k = 0 then parentId else t.scopes.length + k - 1),
        .genericParam holder name (idx + k)) ∧
    lookupLocalBindings (.genericParam holder name (idx + k)) =
      [(name, .genericParameter)] ∧
    lookupMatches genericTree 12 18 "A" = [⟨"A", .genericParameter, 2⟩] ∧
    lookupMatches genericTree 12 14 "B" = [] := by
  refine ⟨createGPC_length holder range ps idx parentId t, ?_, rfl, by decide, by decide⟩
  have hspec := createGPC_spec holder range ps idx parentId t k hk
  have hgn : ps.get ⟨k, hk⟩ = name := by
    rw [List.get?_eq_get hk] at hname
    exact Option.some.inj hname
  rw [hgn] at hspec
  exact hspec

/-- C5: the pattern-entry initializer scope (scope 6) is split from the use
scope (scope 7) and introduces no bindings of its own, so in `let a = a` the
right-hand `a` (location 22, innermost scope 6) resolves to the outer
function parameter (scope 2), never to the binding the entry defines, while
a subsequent statement (location 40) finds the new binding at the use
scope. -/
theorem c5_pattern_entry_initializer_split :
    (patternTree.scopes.get? 6).map Scope.kind = some (.patternEntryInit ["a"]) ∧
    (patternTree.scopes.get? 7).map Scope.kind =
      some (.patternEntryUse ["a"] (some 30)) ∧
    lookupLocalBindings (.patternEntryInit ["a"]) = [] ∧
    findInnermost patternTree 12 0 22 = 6 ∧
    lookupMatches patternTree 12 22 "a" = [⟨"a", .functionParameter, 2⟩] ∧
    lookupMatches patternTree 12 40 "a" = [⟨"a", .localVariable, 7⟩] := by
  decide

/-- C6: in one outward walk (started with an empty haveAlreadyLookedHere
marker and no limit), when chained scope nodes of one declaration are
consecutive in the walk (the decidable grouping check), the
generics-and-self search runs at most once per declaration (the searched
list has no duplicates); every declaration whose search step is reached is
searched at least once, including the final idempotent self-type lookup at
a lookup-limit node; and a lookup-limit node, once visited, is the last
scope visited — the walk terminates there. -/
theorem c6_self_search_at_most_once {σ : Type} (t : ScopeTree)
    (consume : σ → List FoundDecl → σ × Bool) (fuel i : Nat) (casc : Option Bool)
    (st : σ)
    (hgrp : groupedSteps [] none
      (lookupGo t consume fuel i none none none casc st).searchSteps = true) :
    (lookupGo t consume fuel i none none none casc st).searched.Nodup ∧
    (∀ d : Nat,
      some d ∈ (lookupGo t consume fuel i none none none casc st).searchSteps →
      d ∈ (lookupGo t consume fuel i none none none casc st).searched) ∧
    (∀ ℓ ∈ (lookupGo t consume fuel i none none none casc st).visited,
      getLookupLimit t ℓ = some ℓ →
      (lookupGo t consume fuel i none none none casc st).visited.getLast? = some ℓ) := by
  refine ⟨(lookupGo_nodup t consume fuel i none none none casc st [] hgrp).1, ?_, ?_⟩
  · intro d hd
    rcases lookupGo_steps t consume fuel i none none none casc st d hd with h | h
    · exact h
    · exact absurd h (by simp)
  · exact lookupGo_limit t consume fuel i none none casc st

/-- C7: the lookup entry point always returns, and its return value is the
final cascading-use state — the fold of the per-scope cascading policies
over the scopes whose contribution was folded, a dependency-tracking value
independent of lookup success; every found declaration reaches the caller
only through the supplied consumer (the final consumer state is exactly the
fold of the consumer over the delivered batches); and the delivered result
may be empty while a cascading state is still returned. -/
theorem c7_lookup_returns_cascading_state {σ : Type} (t : ScopeTree)
    (consume : σ → List FoundDecl → σ × Bool) (fuel loc : Nat)
    (isCascadingUse : Option Bool) (st : σ) :
    (unqualifiedLookup t consume fuel loc isCascadingUse st).isCascadingUse =
      (unqualifiedLookup t consume fuel loc isCascadingUse st).foldedScopes.foldl
        (fun c j => resolveCascadingAt t j c) isCascadingUse ∧
    (unqualifiedLookup t consume fuel loc isCascadingUse st).consumerState =
      (unqualifiedLookup t consume fuel loc isCascadingUse st).offeredBatches.foldl
        (fun s b => (consume s b).1) st ∧
    lookupMatches patternTree 12 40 "zzz" = [] ∧
    (unqualifiedLookup patternTree (targetConsumer "zzz") 12 40 none
      ([] : List FoundDecl)).isCascadingUse = some false := by
  refine ⟨?_, ?_, by decide, by decide⟩
  · simp only [unqualifiedLookup]
    exact lookupGo_casc t consume fuel _ none none none isCascadingUse st
  · simp only [unqualifiedLookup]
    exact lookupGo_state t consume fuel _ none none none isCascadingUse st

/-- C8: querying a node's source range in a cache-coherent tree leaves the
node expanded, returns the minimal source range containing the node's own
content widened by the ignored-node range and the ranges of all its
children (it equals the recomputed range, contains the base and every
child's range, and is contained in any range containing those parts), the
result is memoized (a second query is the identity), coherence is
preserved, and appending a child invalidates the cached ranges of the
target and of every ancestor on the path to it. -/
theorem c8_range_query_contract (t : STree) (h : coherent t = true) :
    (getRangeM t).1.expanded = true ∧
    (getRangeM t).2 = computedRange (getRangeM t).1 ∧
    coherent (getRangeM t).1 = true ∧
    ((getRangeM t).2).containsR
      (mergeBase (getRangeM t).1.childlessRange (getRangeM t).1.ignoredRange) = true ∧
    (∀ c ∈ (getRangeM t).1.storedChildren.toList,
      ((getRangeM t).2).containsR (computedRange c) = true) ∧
    (∀ r : SourceRange,
      r.containsR (mergeBase (getRangeM t).1.childlessRange
        (getRangeM t).1.ignoredRange) = true →
      (∀ c ∈ (getRangeM t).1.storedChildren.toList,
        r.containsR (computedRange c) = true) →
      r.containsR (getRangeM t).2 = true) ∧
    getRangeM (getRangeM t).1 = getRangeM t ∧
    (∀ (q rest : List Nat) (c2 n2 : STree),
      subtreeAt q (addChildAt (q ++ rest) c2 t) = some n2 →
      n2.cachedSourceRange = none) := by
  have hspec := getRangeM_spec t h
  refine ⟨getRangeM_expanded t h, hspec.1, hspec.2, ?_, ?_, ?_, getRangeM_memo t,
    fun q rest c2 n2 hq => addChildAt_clears q rest c2 t n2 hq⟩
  · rw [hspec.1]
    exact computedRange_contains_base _
  · intro c hc
    rw [hspec.1]
    exact computedRange_contains_child hc
  · intro r hb hc
    rw [hspec.1]
    rcases hpost : (getRangeM t).1 with ⟨cr, ig, ca, ex, df, ch⟩
    rw [hpost] at hb hc
    simp only [STree.childlessRange, STree.ignoredRange, STree.storedChildren] at hb hc
    simp only [computedRange]
    exact unionChildren_minimal ch _ r hb hc

/-- C9: the lazy-expansion transition is idempotent — on an already-expanded
node it is a no-op, and repeating it at any path leaves the tree, hence the
child sequence and the computed source range, identical to the first
expansion. -/
theorem c9_expansion_idempotent (t : STree) (p : List Nat) (h : t.expanded = true) :
    expandNode t = t ∧
    expandAt p (expandAt p t) = expandAt p t ∧
    (expandAt p (expandAt p t)).storedChildren = (expandAt p t).storedChildren ∧
    computedRange (expandAt p (expandAt p t)) = computedRange (expandAt p t) :=
  ⟨expandNode_of_expanded t h, expandAt_idem p t,
   by rw [expandAt_idem p t], by rw [expandAt_idem p t]⟩

/-- C10: an interpolated string literal or editor placeholder answers the
source-range query with only its starting point, so a location strictly
inside the token lies outside the reported range but inside the effective
source range, which covers the real extent; a pattern-entry use scope's
effective range never starts before the recorded end of its entry's
initializer; and in the concrete tree whose initializer scope takes the
literal's effective range, a lookup at a location inside the token resolves
to the initializer scope (not the use scope, which is clamped to start at
40) and correctly finds the outer parameter `b`. -/
theorem c10_effective_source_ranges (n : ASTNodeModel) (loc : Nat)
    (hk : n.kind ≠ .regular) (h1 : n.startLoc < loc) (h2 : loc ≤ n.endLoc) :
    n.reportedSourceRange.containsLoc loc = false ∧
    (getEffectiveSourceRange n).containsLoc loc = true ∧
    (getEffectiveSourceRange n).containsR n.reportedSourceRange = true ∧
    (∀ (t : ScopeTree) (i : Nat) (ns : List String) (ie : Nat) (sc : Scope)
      (r : SourceRange), t.scopes.get? i = some sc →
      sc.kind = .patternEntryUse ns (some ie) → scopeRangeOf t i = some r →
      ie ≤ r.first) ∧
    (litNode.reportedSourceRange = ⟨20, 20⟩ ∧
      (c10Tree.scopes.get? 4).map Scope.range = some (getEffectiveSourceRange litNode) ∧
      scopeRangeOf c10Tree 5 = some ⟨40, 95⟩ ∧
      findInnermost c10Tree 12 0 35 = 4 ∧
      lookupMatches c10Tree 12 35 "b" = [⟨"b", .functionParameter, 1⟩]) := by
  rcases n with ⟨kind, s, e⟩
  simp only [ASTNodeModel.startLoc, ASTNodeModel.endLoc] at h1 h2
  refine ⟨?_, ?_, ?_, ?_, by decide, by decide, by decide, by decide, by decide⟩
  · cases kind with
    | regular => exact absurd rfl hk
    | interpolatedStringLiteral =>
      show (decide (s ≤ loc) && decide (loc ≤ s)) = false
      simp only [Bool.and_eq_false_iff, decide_eq_false_iff_not]
      omega
    | editorPlaceholder =>
      show (decide (s ≤ loc) && decide (loc ≤ s)) = false
      simp only [Bool.and_eq_false_iff, decide_eq_false_iff_not]
      omega
  · show (decide (s ≤ loc) && decide (loc ≤ e)) = true
    simp only [Bool.and_eq_true, decide_eq_true_eq]
    omega
  · cases kind with
    | regular =>
      show (decide (s ≤ s) && decide (e ≤ e)) = true
      simp
    | interpolatedStringLiteral =>
      show (decide (s ≤ s) && decide (s ≤ e)) = true
      simp only [Bool.and_eq_true, decide_eq_true_eq]
      omega
    | editorPlaceholder =>
      show (decide (s ≤ s) && decide (s ≤ e)) = true
      simp only [Bool.and_eq_true, decide_eq_true_eq]
      omega
  · intro t2 i ns2 ie sc r hsc hkind hr
    simp only [scopeRangeOf, hsc, Option.map_some', hkind, Option.some.injEq] at hr
    rw [← hr]
    simp only []
    omega

/-! # Witnesses -/

set_option maxRecDepth 40000 in
/-- Witness for C1 at location 100, inside the inner type's method body. -/
theorem c1_witness :
    (100 : Nat) < 170 ∧ (61 : Nat) ≤ 100 ∧
    (lookupMatches nestedTypeTree 20 100 "m" = [] ∧
      lookupMatches nestedTypeTree 20 100 "T" = [] ∧
      lookupMatches nestedTypeTree 20 100 "n" =
        [⟨"n", .memberOfCurrentNominal, 5⟩] ∧
      (unqualifiedLookup nestedTypeTree (targetConsumer "m") 20 100 none
        ([] : List FoundDecl)).visited = [8, 7, 6, 5, 4] ∧
      getLookupLimit nestedTypeTree 4 = some 4 ∧
      (nestedTypeTree.decls.get? 1).map DeclInfo.declaredInTypeBody = some true ∧
      lookupMatches nestedTypeTree 20 185 "m" =
        [⟨"m", .memberOfCurrentNominal, 3⟩]) :=
  ⟨by decide, by decide,
   c1_illegal_nesting_limits_lookup 100 (by decide) (by decide)⟩

/-- Witness for C2: appending a leaf child `[12,18]` under the stored kid of
the demo tree at path `[0]`. -/
theorem c2_witness :
    orderedTreeB rangeDemoTree = true ∧
    subtreeAt [0] rangeDemoTree = some (rangeLeaf 10 20) ∧
    (rangeLeaf 10 20).deferredNodes = STreeList.nil ∧
    orderedTreeB (rangeLeaf 12 18) = true ∧
    (eventualRange (rangeLeaf 10 20)).containsR (eventualRange (rangeLeaf 12 18)) =
      true ∧
    (∀ k ∈ (rangeLeaf 10 20).storedChildren.toList,
      (eventualRange k).last < (eventualRange (rangeLeaf 12 18)).first) ∧
    ((∀ s : STree, ∀ c ∈ s.storedChildren.toList,
        (computedRange s).containsR (computedRange c) = true) ∧
      (∀ s : STree, orderedTreeB s = true →
        List.Pairwise (fun a b => a.last < b.first)
          (s.storedChildren.toList.map computedRange)) ∧
      orderedTreeB (expandAt [0] rangeDemoTree) = true ∧
      orderedTreeB (getRangeM rangeDemoTree).1 = true ∧
      orderedTreeB (addChildAt [0] (rangeLeaf 12 18) rangeDemoTree) = true ∧
      eventualRange (addChildAt [0] (rangeLeaf 12 18) rangeDemoTree) =
        eventualRange rangeDemoTree) :=
  ⟨by decide, rfl, rfl, by decide, by decide, by decide,
   c2_children_contained_and_ordered rangeDemoTree (rangeLeaf 12 18) (rangeLeaf 10 20)
     [0] (by decide) rfl rfl (by decide) (by decide) (by decide)⟩

/-- Witness for C4: the second parameter of `["A", "B"]` appended to the
empty arena, with parent scope id 5 for the head of the chain. -/
theorem c4_witness :
    (1 : Nat) < (["A", "B"] : List String).length ∧
    (["A", "B"] : List String).get? 1 = some "B" ∧
    ((createGenericParamChain 0 ⟨0, 0⟩ ["A", "B"] 0 5 ⟨[], []⟩).1.scopes.length =
        (⟨[], []⟩ : ScopeTree).scopes.length + (["A", "B"] : List String).length ∧
      ((createGenericParamChain 0 ⟨0, 0⟩ ["A", "B"] 0 5 ⟨[], []⟩).1.scopes.get?
          ((⟨[], []⟩ : ScopeTree).scopes.length + 1)).map
            (fun s => (s.parent, s.kind)) =
        some (some (if 1 = 0 then 5 else (⟨[], []⟩ : ScopeTree).scopes.length + 1 - 1),
          .genericParam 0 "B" (0 + 1)) ∧
      lookupLocalBindings (.genericParam 0 "B" (0 + 1)) =
        [("B", .genericParameter)] ∧
      lookupMatches genericTree 12 18 "A" = [⟨"A", .genericParameter, 2⟩] ∧
      lookupMatches genericTree 12 14 "B" = []) :=
  ⟨by decide, by decide,
   c4_generic_param_chain 0 ⟨0, 0⟩ ["A", "B"] 0 5 ⟨[], []⟩ 1 "B"
     (by decide) (by decide)⟩

/-- Witness for C6: the walk out of the inner method-body scope (8) of the
nested-type tree, with a consumer that never finds its target. -/
theorem c6_witness :
    groupedSteps [] none
      (lookupGo nestedTypeTree (targetConsumer "zzz") 12 8 none none none none
        ([] : List FoundDecl)).searchSteps = true ∧
    ((lookupGo nestedTypeTree (targetConsumer "zzz") 12 8 none none none none
        ([] : List FoundDecl)).searched.Nodup ∧
      (∀ d : Nat,
        some d ∈ (lookupGo nestedTypeTree (targetConsumer "zzz") 12 8 none none none
          none ([] : List FoundDecl)).searchSteps →
        d ∈ (lookupGo nestedTypeTree (targetConsumer "zzz") 12 8 none none none none
          ([] : List FoundDecl)).searched) ∧
      (∀ ℓ ∈ (lookupGo nestedTypeTree (targetConsumer "zzz") 12 8 none none none none
          ([] : List FoundDecl)).visited,
        getLookupLimit nestedTypeTree ℓ = some ℓ →
        (lookupGo nestedTypeTree (targetConsumer "zzz") 12 8 none none none none
          ([] : List FoundDecl)).visited.getLast? = some ℓ)) :=
  ⟨by decide,
   c6_self_search_at_most_once nestedTypeTree (targetConsumer "zzz") 12 8 none
     ([] : List FoundDecl) (by decide)⟩

/-- Witness for C8: the range query on the coherent, unexpanded demo tree. -/
theorem c8_witness :
    coherent rangeDemoTree = true ∧
    ((getRangeM rangeDemoTree).1.expanded = true ∧
      (getRangeM rangeDemoTree).2 = computedRange (getRangeM rangeDemoTree).1 ∧
      coherent (getRangeM rangeDemoTree).1 = true ∧
      ((getRangeM rangeDemoTree).2).containsR
        (mergeBase (getRangeM rangeDemoTree).1.childlessRange
          (getRangeM rangeDemoTree).1.ignoredRange) = true ∧
      (∀ c ∈ (getRangeM rangeDemoTree).1.storedChildren.toList,
        ((getRangeM rangeDemoTree).2).containsR (computedRange c) = true) ∧
      (∀ r : SourceRange,
        r.containsR (mergeBase (getRangeM rangeDemoTree).1.childlessRange
          (getRangeM rangeDemoTree).1.ignoredRange) = true →
        (∀ c ∈ (getRangeM rangeDemoTree).1.storedChildren.toList,
          r.containsR (computedRange c) = true) →
        r.containsR (getRangeM rangeDemoTree).2 = true) ∧
      getRangeM (getRangeM rangeDemoTree).1 = getRangeM rangeDemoTree ∧
      (∀ (q rest : List Nat) (c2 n2 : STree),
        subtreeAt q (addChildAt (q ++ rest) c2 rangeDemoTree) = some n2 →
        n2.cachedSourceRange = none)) :=
  ⟨by decide, c8_range_query_contract rangeDemoTree (by decide)⟩

/-- Witness for C9: repeating expansion at the root of an expanded leaf. -/
theorem c9_witness :
    (rangeLeaf 10 20).expanded = true ∧
    (expandNode (rangeLeaf 10 20) = rangeLeaf 10 20 ∧
      expandAt [] (expandAt [] (rangeLeaf 10 20)) = expandAt [] (rangeLeaf 10 20) ∧
      (expandAt [] (expandAt [] (rangeLeaf 10 20))).storedChildren =
        (expandAt [] (rangeLeaf 10 20)).storedChildren ∧
      computedRange (expandAt [] (expandAt [] (rangeLeaf 10 20))) =
        computedRange (expandAt [] (rangeLeaf 10 20))) :=
  ⟨rfl, c9_expansion_idempotent (rangeLeaf 10 20) [] rfl⟩

/-- Witness for C10: location 35 inside the interpolated string literal that
reports only its start point 20. -/
theorem c10_witness :
    litNode.kind ≠ ASTNodeKind.regular ∧
    litNode.startLoc < 35 ∧ (35 : Nat) ≤ litNode.endLoc ∧
    (litNode.reportedSourceRange.containsLoc 35 = false ∧
      (getEffectiveSourceRange litNode).containsLoc 35 = true ∧
      (getEffectiveSourceRange litNode).containsR litNode.reportedSourceRange = true ∧
      (∀ (t : ScopeTree) (i : Nat) (ns : List String) (ie : Nat) (sc : Scope)
        (r : SourceRange), t.scopes.get? i = some sc →
        sc.kind = .patternEntryUse ns (some ie) → scopeRangeOf t i = some r →
        ie ≤ r.first) ∧
      (litNode.reportedSourceRange = ⟨20, 20⟩ ∧
        (c10Tree.scopes.get? 4).map Scope.range =
          some (getEffectiveSourceRange litNode) ∧
        scopeRangeOf c10Tree 5 = some ⟨40, 95⟩ ∧
        findInnermost c10Tree 12 0 35 = 4 ∧
        lookupMatches c10Tree 12 35 "b" = [⟨"b", .functionParameter, 1⟩])) :=
  ⟨by decide, by decide, by decide,
   c10_effective_source_ranges litNode 35 (by decide) (by decide) (by decide)⟩

end AstScope
